import Mathlib

/-!
Verification development for the CORTEX rational-equation tutoring pipeline.

The development shallowly embeds the core of the repository:

* `olol_hahahaa.py` — equation validator (`validate_rational_equation`),
  denominator extraction (`extract_denominators`), the analyzer
  (`compute_rational_solution_data`) and the three rendering modes;
* `solution_analysis.py` — the student solution checker
  (`analyze_student_solution`, `_parse_student_value`);
* `lcd.py` — the text normalizer (`to_checker_equation` and its helper
  stages).

The external symbolic engine (sympy) is modelled by exact computation over
an expression AST with rational-number coefficients: polynomials are
coefficient lists over `ℚ`, rational functions are numerator/denominator
pairs, symbolic equality (`sympy.simplify(a - b) == 0`) is equality of the
represented rational functions, and the external root solver is modelled on
the rational-root instances exercised by the theorems (the spec lists the
symbolic engine as an external collaborator that the core only consumes).
Python exceptions raised by engine calls are modelled with `Option` /
`Except`.
-/

namespace Cortex

attribute [local semireducible] Rat.add Rat.mul Rat.sub Rat.inv

/-! ### Polynomials over ℚ as little-endian coefficient lists -/

/-- Polynomials over ℚ, represented as little-endian coefficient lists
(index i holds the coefficient of x^i). -/
abbrev Poly := List ℚ

/-- Remove trailing (highest-degree) zero coefficients, producing the
canonical representative of a polynomial. -/
def trimP : Poly → Poly
  | [] => []
  | c :: rest =>
    match trimP rest with
    | [] => if c = 0 then [] else [c]
    | r => c :: r

/-- Evaluate a polynomial at a rational point (Horner form). -/
def peval : Poly → ℚ → ℚ
  | [], _ => 0
  | c :: rest, q => c + q * peval rest q

/-- Polynomial addition. -/
def polyAdd : Poly → Poly → Poly
  | [], q => q
  | p, [] => p
  | a :: p, b :: q => (a + b) :: polyAdd p q

/-- Multiply every coefficient by a rational scalar. -/
def polyScale (c : ℚ) (p : Poly) : Poly := p.map (fun a => c * a)

/-- Polynomial negation. -/
def polyNeg (p : Poly) : Poly := p.map (fun a => -a)

/-- Polynomial subtraction. -/
def polySub (p q : Poly) : Poly := polyAdd p (polyNeg q)

/-- Polynomial multiplication. -/
def polyMul : Poly → Poly → Poly
  | [], _ => []
  | a :: p, q => polyAdd (polyScale a q) (0 :: polyMul p q)

/-- Constant polynomial. -/
def polyC (q : ℚ) : Poly := [q]

/-- The polynomial x. -/
def polyVar : Poly := [0, 1]

/-- Polynomial power. -/
def polyPow (p : Poly) : Nat → Poly
  | 0 => [1]
  | Nat.succ n => polyMul p (polyPow p n)

/-- Decidable semantic equality of polynomial representatives. -/
def polyEqB (p q : Poly) : Bool := trimP p == trimP q

/-- Test for the zero polynomial. -/
def polyIsZero (p : Poly) : Bool := (trimP p).isEmpty

/-- Leading coefficient of the (trimmed) polynomial, 0 for the zero
polynomial. -/
def leadC (p : Poly) : ℚ := (trimP p).getLastD 0

/-- Shift by k: multiply by x^k. -/
def shiftN (k : Nat) (p : Poly) : Poly := List.replicate k 0 ++ p

/-- Monomial c * x^k. -/
def monoN (k : Nat) (c : ℚ) : Poly := List.replicate k 0 ++ [c]

/-- Fuelled polynomial division with remainder (classical long division). -/
def polyDivModAux : Nat → Poly → Poly → Poly × Poly
  | 0, r, _ => ([], r)
  | Nat.succ fuel, r, b =>
    let rt := trimP r
    let bt := trimP b
    if bt.isEmpty then ([], rt)
    else if rt.length < bt.length then ([], rt)
    else
      let k := rt.length - bt.length
      let c := leadC rt / leadC bt
      let r2 := polySub rt (polyScale c (shiftN k bt))
      let qr := polyDivModAux fuel r2 b
      (polyAdd qr.1 (monoN k c), qr.2)

/-- Polynomial division with remainder. -/
def polyDivMod (a b : Poly) : Poly × Poly := polyDivModAux (a.length + 1) a b

/-- Exact polynomial division: returns the quotient only when it
reconstructs the dividend (the check makes soundness immediate). -/
def polyDivExact (a b : Poly) : Option Poly :=
  let q := (polyDivMod a b).1
  if polyEqB (polyMul q b) a then some q else none

/-- Fuelled Euclidean algorithm. -/
def polyGcdAux : Nat → Poly → Poly → Poly
  | 0, a, _ => a
  | Nat.succ fuel, a, b =>
    if polyIsZero b then a else polyGcdAux fuel b (polyDivMod a b).2

/-- Normalize a polynomial to monic form (leading coefficient 1). -/
def monicP (p : Poly) : Poly :=
  let t := trimP p
  if t.isEmpty then [] else polyScale (1 / leadC t) t

/-- Monic polynomial gcd (model of the engine gcd used by lcm). -/
def polyGcd (a b : Poly) : Poly :=
  monicP (polyGcdAux (a.length + b.length + 2) a b)

/-- Polynomial lcm: a*b / gcd(a,b), with the product as a safe fallback.
Models sympy.lcm on polynomials. -/
def polyLcm (a b : Poly) : Poly :=
  match polyDivExact (polyMul a b) (polyGcd a b) with
  | some l => l
  | none => polyMul a b

/-- Left fold of `polyLcm` over a nonempty list, as `sympy.lcm` does for a
list argument; the empty list yields 1. -/
def polyLcmList : List Poly → Poly
  | [] => [1]
  | p :: rest => rest.foldl polyLcm p

/-! ### Formal rational functions: numerator/denominator pairs -/

/-- A rational function as a formal numerator/denominator pair. -/
abbrev RatFun := Poly × Poly

/-- Rational-function addition (no cancellation, mirroring
`sympy.together`). -/
def ratAdd (a b : RatFun) : RatFun :=
  (polyAdd (polyMul a.1 b.2) (polyMul b.1 a.2), polyMul a.2 b.2)

/-- Rational-function negation. -/
def ratNeg (a : RatFun) : RatFun := (polyNeg a.1, a.2)

/-- Rational-function subtraction. -/
def ratSub (a b : RatFun) : RatFun := ratAdd a (ratNeg b)

/-- Rational-function multiplication. -/
def ratMul (a b : RatFun) : RatFun := (polyMul a.1 b.1, polyMul a.2 b.2)

/-- Rational-function division. -/
def ratDiv (a b : RatFun) : RatFun := (polyMul a.1 b.2, polyMul a.2 b.1)

/-- Rational-function power. -/
def ratPow (a : RatFun) (n : Nat) : RatFun := (polyPow a.1 n, polyPow a.2 n)

/-- Cross-multiplication equality of rational functions; this is the model
of `sympy.simplify(a - b) == 0` for rational expressions. -/
def ratEquivB (a b : RatFun) : Bool := polyEqB (polyMul a.1 b.2) (polyMul b.1 a.2)

/-- Cancel the fraction to lowest terms; model of `sympy.simplify` /
`sympy.cancel` on a rational function. Falls back to the input when exact
division does not verify. -/
def ratCancel (a : RatFun) : RatFun :=
  let g := polyGcd a.1 a.2
  match polyDivExact a.1 g, polyDivExact a.2 g with
  | some n, some d => (n, d)
  | _, _ => a

/-- Evaluate a rational function at a point; `none` models the undefined
value (zero denominator). -/
def ratEvalOpt (a : RatFun) (q : ℚ) : Option ℚ :=
  let dv := peval a.2 q
  if dv = 0 then none else some (peval a.1 q / dv)

/-- Whether a cancelled rational function is a constant (model of
`simplify(e).is_Number`). -/
def ratIsConst (a : RatFun) : Bool :=
  let c := ratCancel a
  (trimP c.1).length ≤ 1 && (trimP c.2).length ≤ 1

/-! ### Symbolic expressions in the single variable x

The AST mirrors the sympy expression trees that `sympify` produces for the
rational-equation grammar the pipeline accepts (numbers, `x`, `+ - * /`,
integer powers). -/

/-- Symbolic expression over the single variable x with rational-number
literals. -/
inductive Expr where
  | num (q : ℚ)
  | var
  | add (a b : Expr)
  | sub (a b : Expr)
  | neg (a : Expr)
  | mul (a b : Expr)
  | div (a b : Expr)
  | pow (a : Expr) (n : Nat)
deriving DecidableEq, Repr

/-- Smart negation, distributing over sums and folding literals exactly as
sympy automatic evaluation does (`-(x+1)` becomes `-x - 1`). -/
def negE : Expr → Expr
  | Expr.num q => Expr.num (-q)
  | Expr.add a b => Expr.add (negE a) (negE b)
  | Expr.sub a b => Expr.sub (negE a) (negE b)
  | Expr.neg a => a
  | e => Expr.neg e

/-- Smart addition (folds numeric literals, drops zero summands). -/
def addE (a b : Expr) : Expr :=
  match a, b with
  | Expr.num p, Expr.num q => Expr.num (p + q)
  | Expr.num p, e => if p = 0 then e else Expr.add (Expr.num p) e
  | e, Expr.num q => if q = 0 then e else Expr.add e (Expr.num q)
  | e, f => Expr.add e f

/-- Smart subtraction (folds literals, cancels syntactically equal
operands as sympy automatic evaluation does). -/
def subE (a b : Expr) : Expr :=
  match a, b with
  | Expr.num p, Expr.num q => Expr.num (p - q)
  | e, Expr.num q => if q = 0 then e else Expr.sub e (Expr.num q)
  | e, f => if e = f then Expr.num 0 else Expr.sub e f

/-- Smart multiplication (folds literals, absorbs 0 and 1, distributes a
numeric coefficient over a sum as sympy automatic evaluation does). -/
def mulE (a b : Expr) : Expr :=
  match a, b with
  | Expr.num p, Expr.num q => Expr.num (p * q)
  | Expr.num p, e =>
    if p = 0 then Expr.num 0
    else if p = 1 then e
    else
      match e with
      | Expr.add c d => Expr.add (mulE (Expr.num p) c) (mulE (Expr.num p) d)
      | Expr.sub c d => Expr.sub (mulE (Expr.num p) c) (mulE (Expr.num p) d)
      | f => Expr.mul (Expr.num p) f
  | e, Expr.num q =>
    if q = 0 then Expr.num 0
    else if q = 1 then e
    else Expr.mul e (Expr.num q)
  | e, f => Expr.mul e f

/-- Smart division (folds literals, drops a denominator of 1). -/
def divE (a b : Expr) : Expr :=
  match a, b with
  | Expr.num p, Expr.num q => if q = 0 then Expr.div (Expr.num p) (Expr.num 0) else Expr.num (p / q)
  | e, Expr.num q => if q = 1 then e else Expr.div e (Expr.num q)
  | e, f => Expr.div e f

/-- Smart power (folds literals, absorbs exponents 0 and 1). -/
def powE (a : Expr) (n : Nat) : Expr :=
  match n, a with
  | 0, _ => Expr.num 1
  | 1, e => e
  | Nat.succ m, Expr.num q => Expr.num (q ^ Nat.succ m)
  | Nat.succ m, e => Expr.pow e (Nat.succ m)

/-- Evaluate an expression at a rational point; `none` models an undefined
value (division by zero), i.e. a substitution that yields `zoo`/raises. -/
def evalExpr : Expr → ℚ → Option ℚ
  | Expr.num q, _ => some q
  | Expr.var, v => some v
  | Expr.add a b, v =>
    match evalExpr a v, evalExpr b v with
    | some x, some y => some (x + y)
    | _, _ => none
  | Expr.sub a b, v =>
    match evalExpr a v, evalExpr b v with
    | some x, some y => some (x - y)
    | _, _ => none
  | Expr.neg a, v => (evalExpr a v).map (fun x => -x)
  | Expr.mul a b, v =>
    match evalExpr a v, evalExpr b v with
    | some x, some y => some (x * y)
    | _, _ => none
  | Expr.div a b, v =>
    match evalExpr a v, evalExpr b v with
    | some x, some y => if y = 0 then none else some (x / y)
    | _, _ => none
  | Expr.pow a n, v => (evalExpr a v).map (fun x => x ^ n)

/-- Convert an expression to a formal rational function (numerator and
denominator polynomial); this is the polynomial-level meaning of
`sympy.together(e).as_numer_denom()`. -/
def toRat : Expr → RatFun
  | Expr.num q => (polyC q, [1])
  | Expr.var => (polyVar, [1])
  | Expr.add a b => ratAdd (toRat a) (toRat b)
  | Expr.sub a b => ratSub (toRat a) (toRat b)
  | Expr.neg a => ratNeg (toRat a)
  | Expr.mul a b => ratMul (toRat a) (toRat b)
  | Expr.div a b => ratDiv (toRat a) (toRat b)
  | Expr.pow a n => ratPow (toRat a) n

/-- Symbolic equality of two expressions; model of
`sympy.simplify(a - b) == 0`. -/
def exprEqB (a b : Expr) : Bool := ratEquivB (toRat a) (toRat b)

/-- Whether the expression is symbolically the constant 1. -/
def exprIsOneB (e : Expr) : Bool := exprEqB e (Expr.num 1)

/-- Whether the expression is symbolically the constant 0. -/
def exprIsZeroB (e : Expr) : Bool := exprEqB e (Expr.num 0)

/-- Structural `is_Add` test (sympy represents `a - b` as an `Add`). -/
def isAddE : Expr → Bool
  | Expr.add _ _ => true
  | Expr.sub _ _ => true
  | _ => false

/-- Combine an expression into a single AST-level fraction, returning the
numerator and denominator expressions: model of
`sympy.fraction(sympy.together(e))`, which keeps the denominator in
product form. -/
def togetherND : Expr → Expr × Expr
  | Expr.num q => (Expr.num q.num, Expr.num (q.den : ℚ))
  | Expr.var => (Expr.var, Expr.num 1)
  | Expr.add a b =>
    let x := togetherND a
    let y := togetherND b
    (addE (mulE x.1 y.2) (mulE y.1 x.2), mulE x.2 y.2)
  | Expr.sub a b =>
    let x := togetherND a
    let y := togetherND b
    (subE (mulE x.1 y.2) (mulE y.1 x.2), mulE x.2 y.2)
  | Expr.neg a =>
    let x := togetherND a
    (negE x.1, x.2)
  | Expr.mul a b =>
    let x := togetherND a
    let y := togetherND b
    (mulE x.1 y.1, mulE x.2 y.2)
  | Expr.div a b =>
    let x := togetherND a
    let y := togetherND b
    (mulE x.1 y.2, mulE x.2 y.1)
  | Expr.pow a n =>
    let x := togetherND a
    (powE x.1 n, powE x.2 n)

/-- Flatten the factors of a product (model of `e.args` on a sympy `Mul`,
and `[e]` on a non-`Mul`). -/
def mulFactors : Expr → List Expr
  | Expr.mul a b => mulFactors a ++ mulFactors b
  | e => [e]

/-- Model of `sympy.factor`: the analyzer only uses factoring to put
denominators in factored form before lcm; the representative is
value-preserving, and for the already-irreducible denominators exercised
here factoring is the identity. -/
def factorE (e : Expr) : Expr := e

/-! ### Printer (model of `sympy.sstr`, used only as the sort key in
`compute_rational_solution_data`) -/

/-- Decimal digit character. -/
def digitChar : Nat → Char
  | 0 => '0'
  | 1 => '1'
  | 2 => '2'
  | 3 => '3'
  | 4 => '4'
  | 5 => '5'
  | 6 => '6'
  | 7 => '7'
  | 8 => '8'
  | 9 => '9'
  | _ => '0'

/-- Decimal digits of a natural number (fuelled). -/
def natDigitsAux : Nat → Nat → List Char
  | 0, _ => []
  | Nat.succ fuel, n =>
    if n < 10 then [digitChar n]
    else natDigitsAux fuel (n / 10) ++ [digitChar (n % 10)]

/-- Decimal representation of a natural number. -/
def natToStr (n : Nat) : String := String.mk (natDigitsAux (n + 1) n)

/-- Decimal representation of an integer. -/
def intToStr (i : Int) : String :=
  if i < 0 then "-" ++ natToStr i.natAbs else natToStr i.natAbs

/-- Print a rational literal as sympy does (`3`, `-3`, `1/2`). -/
def ratToString (q : ℚ) : String :=
  if q.den = 1 then intToStr q.num else intToStr q.num ++ "/" ++ natToStr q.den

/-- Parenthesize a printed subterm when it is a compound expression and
appears under a tighter operator. -/
def parenCompound (e : Expr) (s : String) : String :=
  match e with
  | Expr.num q => if q < 0 then "(" ++ s ++ ")" else s
  | Expr.var => s
  | Expr.pow _ _ => s
  | _ => "(" ++ s ++ ")"

/-- Print an expression in a `sympy.sstr`-like form (this printer is used
by the analyzer only as the deterministic sort key for denominators). -/
def exprToString : Expr → String
  | Expr.num q => ratToString q
  | Expr.var => "x"
  | Expr.add a b => exprToString a ++ " + " ++ exprToString b
  | Expr.sub a b => exprToString a ++ " - " ++ exprToString b
  | Expr.neg a => "-" ++ parenCompound a (exprToString a)
  | Expr.mul a b => parenCompound a (exprToString a) ++ "*" ++ parenCompound b (exprToString b)
  | Expr.div a b => parenCompound a (exprToString a) ++ "/" ++ parenCompound b (exprToString b)
  | Expr.pow a n => parenCompound a (exprToString a) ++ "**" ++ natToStr n

/-! ### Parser: model of `sympy.sympify` on the accepted grammar

`sympify` is part of the external symbolic engine (spec §6).  The model
parses the single-variable algebraic grammar the pipeline feeds it
(rational literals, `x`, `+ - * /`, `**` with natural exponents,
parentheses); any other input is a parse failure (`None` models the
`SympifyError` exception). -/

/-- Drop leading whitespace characters. -/
def skipWs (s : List Char) : List Char := s.dropWhile (fun c => c.isWhitespace)

/-- Read a maximal run of decimal digits, returning its value and length. -/
def readDigits : List Char → Nat → Nat → Nat × Nat × List Char
  | c :: rest, acc, len =>
    if c.isDigit then readDigits rest (acc * 10 + (c.toNat - 48)) (len + 1)
    else (acc, len, c :: rest)
  | [], acc, len => (acc, len, [])

/-- Parse an unsigned numeric literal (`12`, `2.5`) into a rational. -/
def parseNumberTok (s : List Char) : Option (ℚ × List Char) :=
  match readDigits s 0 0 with
  | (_, 0, _) => none
  | (n, _, rest) =>
    match rest with
    | '.' :: rest2 =>
      match readDigits rest2 0 0 with
      | (_, 0, _) => none
      | (m, k, rest3) => some ((n : ℚ) + (m : ℚ) / ((10 : ℚ) ^ k), rest3)
    | _ => some ((n : ℚ), rest)

/-- Parse an optional `**` exponent suffix (digits, optionally in
parentheses). -/
def parsePowSuffix (e : Expr) (s : List Char) : Option (Expr × List Char) :=
  match s with
  | '*' :: '*' :: rest =>
    let r := skipWs rest
    match r with
    | '(' :: r2 =>
      match readDigits (skipWs r2) 0 0 with
      | (_, 0, _) => none
      | (n, _, r3) =>
        match skipWs r3 with
        | ')' :: r4 => some (powE e n, r4)
        | _ => none
    | _ =>
      match readDigits r 0 0 with
      | (_, 0, _) => none
      | (n, _, r3) => some (powE e n, r3)
  | _ => some (e, s)

mutual

/-- Parse a sum (`term (('+'|'-') term)*`), fuelled. -/
def parseSum : Nat → List Char → Option (Expr × List Char)
  | 0, _ => none
  | Nat.succ fuel, s =>
    match parseTerm fuel s with
    | none => none
    | some (e, rest) => parseSumRest fuel e rest

/-- Parse the remaining `(('+'|'-') term)*` of a sum, left-associatively. -/
def parseSumRest : Nat → Expr → List Char → Option (Expr × List Char)
  | 0, _, _ => none
  | Nat.succ fuel, acc, s =>
    match skipWs s with
    | '+' :: rest =>
      match parseTerm fuel rest with
      | none => none
      | some (e, r2) => parseSumRest fuel (addE acc e) r2
    | '-' :: rest =>
      match parseTerm fuel rest with
      | none => none
      | some (e, r2) => parseSumRest fuel (subE acc e) r2
    | r => some (acc, r)

/-- Parse a product (`factor (('*'|'/') factor)*`), fuelled. -/
def parseTerm : Nat → List Char → Option (Expr × List Char)
  | 0, _ => none
  | Nat.succ fuel, s =>
    match parseFactor fuel s with
    | none => none
    | some (e, rest) => parseTermRest fuel e rest

/-- Parse the remaining `(('*'|'/') factor)*` of a product,
left-associatively. -/
def parseTermRest : Nat → Expr → List Char → Option (Expr × List Char)
  | 0, _, _ => none
  | Nat.succ fuel, acc, s =>
    match skipWs s with
    | '*' :: rest =>
      match rest with
      | '*' :: _ => some (acc, skipWs s)
      | _ =>
        match parseFactor fuel rest with
        | none => none
        | some (e, r2) => parseTermRest fuel (mulE acc e) r2
    | '/' :: rest =>
      match parseFactor fuel rest with
      | none => none
      | some (e, r2) => parseTermRest fuel (divE acc e) r2
    | r => some (acc, r)

/-- Parse a signed factor (`'-' factor | atom ('**' nat)?`), fuelled. -/
def parseFactor : Nat → List Char → Option (Expr × List Char)
  | 0, _ => none
  | Nat.succ fuel, s =>
    match skipWs s with
    | '-' :: rest =>
      match parseFactor fuel rest with
      | none => none
      | some (e, r2) => some (negE e, r2)
    | '+' :: rest => parseFactor fuel rest
    | 'x' :: rest => parsePowSuffix Expr.var rest
    | '(' :: rest =>
      match parseSum fuel rest with
      | none => none
      | some (e, r2) =>
        match skipWs r2 with
        | ')' :: r3 => parsePowSuffix e r3
        | _ => none
    | r =>
      match parseNumberTok r with
      | none => none
      | some (q, r2) => parsePowSuffix (Expr.num q) r2

end

/-- Parse a complete expression string, requiring full consumption (model
of `sympy.sympify` on the accepted single-variable grammar). -/
def parseExprStr (s : String) : Option Expr :=
  match parseSum (s.length + 8) s.data with
  | some (e, rest) => if (skipWs rest).isEmpty then some e else none
  | none => none

/-- Split a character list at the first occurrence of a character
(Python `s.split(c, 1)`). -/
def splitOnceChar (c : Char) : List Char → Option (List Char × List Char)
  | [] => none
  | a :: rest =>
    if a = c then some ([], rest)
    else
      match splitOnceChar c rest with
      | none => none
      | some (l, r) => some (a :: l, r)

/-- Split an equation string at its first `=` and parse both sides
(`equation_str.split("=", 1)` followed by `sympify` on each side). -/
def parseEqStr (s : String) : Option (Expr × Expr) :=
  match splitOnceChar '=' s.data with
  | none => none
  | some (l, r) =>
    match parseExprStr (String.mk l), parseExprStr (String.mk r) with
    | some le, some re => some (le, re)
    | _, _ => none

/-! ### Root solver: model of `sympy.solve` on polynomial equations

Root solving is an external engine capability (spec §6; implementing the
solver is an explicit non-goal).  The model returns the exact rational
roots for degrees ≤ 2 — the fragment exercised here — and the empty list
outside it (irrational/complex roots and degree ≥ 3 are outside the
rational model). -/

/-- Largest r with r*r ≤ n, by structural scan (kernel-reducible). -/
def natSqrtLinear (n : Nat) : Nat :=
  (List.range (n + 2)).foldl (fun acc r => if r * r ≤ n then r else acc) 0

/-- Exact square root of a natural number, if it exists. -/
def natSqrtExact (n : Nat) : Option Nat :=
  let r := natSqrtLinear n
  if r * r = n then some r else none

/-- Exact square root of a nonnegative rational, if it is rational. -/
def ratSqrtExact (q : ℚ) : Option ℚ :=
  if q < 0 then none
  else
    match natSqrtExact q.num.toNat, natSqrtExact q.den with
    | some a, some b => some ((a : ℚ) / (b : ℚ))
    | _, _ => none

/-- Sort a two-element root list ascending, as `sympy.solve` reports
rational roots. -/
def sortPairQ (a b : ℚ) : List ℚ := if a ≤ b then [a, b] else [b, a]

/-- Model of `sympy.solve(p = 0, x)` for the rational-root fragment. -/
def solveQ (p : Poly) : List ℚ :=
  match trimP p with
  | [] => []
  | [_] => []
  | [c, b] => [-c / b]
  | [c, b, a] =>
    let d := b * b - 4 * a * c
    match ratSqrtExact d with
    | none => []
    | some s => if s = 0 then [-b / (2 * a)] else sortPairQ ((-b - s) / (2 * a)) ((-b + s) / (2 * a))
  | _ => []

/-! ### Embedding of `olol_hahahaa.py` -/

/-- Insert `*` between two adjacent characters matching the two classes,
with the non-overlapping left-to-right semantics of `re.sub` on a
two-character pattern (after a replacement, scanning resumes after the
second character). -/
def insertStarPairs (p q : Char → Bool) : List Char → List Char
  | a :: b :: rest =>
    if p a && q b then a :: '*' :: b :: insertStarPairs p q rest
    else a :: insertStarPairs p q (b :: rest)
  | l => l

/-- Embedding of `insert_multiplication_signs` (olol_hahahaa.py lines
8-15): `*` between digit-letter, letter-letter and letter-digit pairs. -/
def insert_multiplication_signs (s : String) : String :=
  let s1 := insertStarPairs (fun c => c.isDigit) (fun c => c.isAlpha) s.data
  let s2 := insertStarPairs (fun c => c.isAlpha) (fun c => c.isAlpha) s1
  let s3 := insertStarPairs (fun c => c.isAlpha) (fun c => c.isDigit) s2
  String.mk s3

/-- Validator message: missing equals sign. -/
def notAnEquationMsg : String := "Error: Not an equation. Missing =."

/-- Validator message: parse failure (the source message interpolates the
exception text; the embedding uses the fixed prefix). -/
def invalidFormatMsg : String := "Error: Invalid equation format."

/-- Validator message: identically zero denominator. -/
def zeroDenomMsg : String := "Error: Denominator is identically zero."

/-- Validator message: identity equation. -/
def identityMsg : String := "This equation is always true (infinite solutions)."

/-- Validator message: contradictory equation. -/
def contradictionMsg : String := "This equation has no solution (contradiction)."

/-- Validator message: valid with constant denominators. -/
def constantDenomMsg : String := "Valid rational equation (constant denominators)."

/-- Validator message: valid, extraneous-solution check required. -/
def proceedMsg : String := "Valid rational equation (proceed with solving, check for extraneous solutions)."

/-- Does the combined denominator of a side have degree 0 in x (the
step-4 constant-denominator test)? -/
def constDenB (e : Expr) : Bool := (trimP (toRat e).2).length == 1

/-- Embedding of the post-parse part of `validate_rational_equation`
(olol_hahahaa.py lines 42-75) on the two parsed sides.  The
forbidden-function and not-a-polynomial-fraction branches of step 2 are
unreachable in the modelled fragment (the AST has no transcendental
constructors and every side is a ratio of polynomials by construction), so
only the remaining branches appear. -/
def validateCore (lhs rhs : Expr) : Bool × String :=
  if polyIsZero (toRat lhs).2 || polyIsZero (toRat rhs).2 then (false, zeroDenomMsg)
  else if exprEqB lhs rhs then (true, identityMsg)
  else if ratIsConst (ratSub (toRat lhs) (toRat rhs)) then (false, contradictionMsg)
  else if constDenB lhs && constDenB rhs then (true, constantDenomMsg)
  else (true, proceedMsg)

/-- Embedding of `validate_rational_equation` (olol_hahahaa.py lines
27-75): missing `=` and parse failures are reported as `(False, message)`
(the source wraps every engine call in try/except and returns an error
pair; the model's parser returns `Option`). -/
def validate_rational_equation (s : String) : Bool × String :=
  if s.data.count '=' == 0 then (false, notAnEquationMsg)
  else
    match parseEqStr s with
    | none => (false, invalidFormatMsg)
    | some (l, r) => validateCore l r

/-- Structural deduplication of a list of expressions (Python `set`
semantics on sympy objects). -/
def dedupListE (l : List Expr) : List Expr :=
  l.foldl (fun acc e => if acc.contains e then acc else acc ++ [e]) []

/-- Embedding of `extract_denominators` (olol_hahahaa.py lines 78-92):
recurse through additive structure, take the denominator of `together` of
each term, split `Mul` denominators into factors, collect as a set.  For
`a - b` sympy recurses into the args `a` and `-b`; negating a term does
not change its `together` denominator, so the embedding recurses on `b`
directly. -/
def extract_denominators : Expr → List Expr
  | Expr.add a b => dedupListE (extract_denominators a ++ extract_denominators b)
  | Expr.sub a b => dedupListE (extract_denominators a ++ extract_denominators b)
  | e => dedupListE ((mulFactors (togetherND e).2).map factorE)

/-- Embedding of `_append_unique` (olol_hahahaa.py lines 95-100) for
rational values (`simplify(a-b) == 0` is exact equality on ℚ). -/
def appendUniqueQ (l : List ℚ) (x : ℚ) : List ℚ :=
  if l.contains x then l else l ++ [x]

/-- Embedding of `_append_unique` for expressions, deduplicating up to
symbolic equality. -/
def appendUniqueE (l : List Expr) (x : Expr) : List Expr :=
  if l.any (fun e => exprEqB e x) then l else l ++ [x]

/-- Model of `sp.solve(sp.Eq(den, 0), x)` for a denominator expression:
rational roots of the cancelled numerator that do not zero the cancelled
denominator. -/
def solveExprZero (den : Expr) : List ℚ :=
  let c := ratCancel (toRat den)
  (solveQ c.1).filter (fun r => !(peval c.2 r == 0))

/-- Polynomial content of a denominator expression (model of reading a
polynomial denominator, used for the lcm step). -/
def exprPolyOf (e : Expr) : Poly :=
  let c := ratCancel (toRat e)
  match trimP c.2 with
  | [k] => polyScale (1 / k) c.1
  | _ => c.1

/-- Substitution test `sympy.simplify(den.subs(x, sol)) == 0`; an
undefined substitution (`zoo`) is not zero. -/
def exprZeroAtB (den : Expr) (sol : ℚ) : Bool :=
  match evalExpr den sol with
  | some v => v == 0
  | none => false

/-- Per-root verification record of the analyzer (the entries of
`data['verification']` that carry mathematical content). -/
structure VerifRec where
  solution : ℚ
  lhs_eval : Option ℚ
  rhs_eval : Option ℚ
  satisfies : Bool
deriving DecidableEq, Repr

/-- Structured result of `compute_rational_solution_data`
(olol_hahahaa.py lines 197-212). -/
structure AnalysisData where
  lhs : Expr
  rhs : Expr
  denominators : List Expr
  excluded_values : List ℚ
  lcd : Poly
  cleared_lhs : RatFun
  cleared_rhs : RatFun
  polynomial : RatFun
  raw_solutions : List ℚ
  valid_solutions : List ℚ
  extraneous_solutions : List ℚ
  verification : List VerifRec
  validation_message : String
deriving DecidableEq, Repr

/-- Lexicographic code-point comparison of character lists (the byte
comparison Python uses when sorting the `sstr` keys). -/
def strLeB : List Char → List Char → Bool
  | [], _ => true
  | _ :: _, [] => false
  | a :: as1, b :: bs1 =>
    if a.toNat < b.toNat then true
    else if b.toNat < a.toNat then false
    else strLeB as1 bs1

/-- Stable insertion of an element into a sorted list. -/
def insertSorted (le : Expr → Expr → Bool) (x : Expr) : List Expr → List Expr
  | [] => [x]
  | y :: rest => if le x y then x :: y :: rest else y :: insertSorted le x rest

/-- Stable ascending sort (model of Python `list.sort`). -/
def sortByKey (le : Expr → Expr → Bool) : List Expr → List Expr
  | [] => []
  | x :: rest => insertSorted le x (sortByKey le rest)

/-- One step of the valid/extraneous partition loop (olol_hahahaa.py lines
168-172): a root goes to `extraneous` when it zeroes any simplified
denominator, otherwise to `valid`, each side deduplicated. -/
def partitionStep (dens : List Expr) (acc : List ℚ × List ℚ) (sol : ℚ) : List ℚ × List ℚ :=
  if dens.any (fun den => exprZeroAtB den sol) then (acc.1, appendUniqueQ acc.2 sol)
  else (appendUniqueQ acc.1 sol, acc.2)

/-- Denominator list of the analyzer (olol_hahahaa.py lines 139-149):
union of the per-side extractions, filtered of 0 and 1, deduplicated up to
symbolic equality and sorted by the printed form. -/
def computeDenoms (lhs rhs : Expr) : List Expr :=
  sortByKey (fun a b => strLeB (exprToString a).data (exprToString b).data)
    ((dedupListE (extract_denominators lhs ++ extract_denominators rhs)).foldl
      (fun acc den =>
        if exprIsZeroB den then acc
        else if exprIsOneB den then acc
        else appendUniqueE acc den)
      [])

/-- Excluded values: roots of each simplified denominator, deduplicated
(olol_hahahaa.py lines 151-154). -/
def computeExcluded (lhs rhs : Expr) : List ℚ :=
  (computeDenoms lhs rhs).foldl (fun acc den => (solveExprZero den).foldl appendUniqueQ acc) []

/-- LCD: lcm of the factored denominators, 1 when none remain
(olol_hahahaa.py lines 156-158). -/
def computeLcd (lhs rhs : Expr) : Poly :=
  if (computeDenoms lhs rhs).isEmpty then [1]
  else polyLcmList ((computeDenoms lhs rhs).map (fun d => exprPolyOf (factorE d)))

/-- Cleared side: `expand(simplify(side * lcd))` (olol_hahahaa.py lines
160-161). -/
def computeCleared (lhs rhs side : Expr) : RatFun :=
  ratCancel (ratMul (toRat side) (computeLcd lhs rhs, [1]))

/-- Raw solutions of `solve(Eq(cleared_lhs, cleared_rhs), x)`
(olol_hahahaa.py line 164). -/
def computeRaw (lhs rhs : Expr) : List ℚ :=
  let pc := ratCancel (ratSub (computeCleared lhs rhs lhs) (computeCleared lhs rhs rhs))
  (solveQ pc.1).filter (fun r => !(peval pc.2 r == 0))

/-- The valid/extraneous partition of the raw solutions
(olol_hahahaa.py lines 166-172). -/
def computePartition (lhs rhs : Expr) : List ℚ × List ℚ :=
  (computeRaw lhs rhs).foldl (partitionStep (computeDenoms lhs rhs)) ([], [])

/-- Verification record for one valid root (olol_hahahaa.py lines
174-195): substitute into the original uncleared sides; `satisfies` holds
iff the symbolic difference of the substituted sides is zero, and an
undefined substitution makes it false. -/
def verifRecOf (lhs rhs : Expr) (sol : ℚ) : VerifRec :=
  { solution := sol
    lhs_eval := evalExpr lhs sol
    rhs_eval := evalExpr rhs sol
    satisfies :=
      match evalExpr lhs sol, evalExpr rhs sol with
      | some a, some b => a - b == 0
      | _, _ => false }

/-- Embedding of the body of `compute_rational_solution_data`
(olol_hahahaa.py lines 135-212) on parsed sides; `sympy.simplify` applied
to the already-simplified denominators is the identity at the
representation level, and the semantic checks use the exact
rational-function tests. -/
def computeCore (lhs rhs : Expr) (message : String) : AnalysisData :=
  { lhs := lhs
    rhs := rhs
    denominators := computeDenoms lhs rhs
    excluded_values := computeExcluded lhs rhs
    lcd := computeLcd lhs rhs
    cleared_lhs := computeCleared lhs rhs lhs
    cleared_rhs := computeCleared lhs rhs rhs
    polynomial := ratSub (computeCleared lhs rhs lhs) (computeCleared lhs rhs rhs)
    raw_solutions := computeRaw lhs rhs
    valid_solutions := (computePartition lhs rhs).1
    extraneous_solutions := (computePartition lhs rhs).2
    verification := (computePartition lhs rhs).1.map (verifRecOf lhs rhs)
    validation_message := message }

/-- Embedding of `compute_rational_solution_data` (olol_hahahaa.py lines
128-212): validate first, raise `ValueError(message)` when invalid
(modelled by `Except.error`), otherwise re-parse the two sides and build
the analysis record. -/
def compute_rational_solution_data (s : String) : Except String AnalysisData :=
  if (validate_rational_equation s).1 = false then Except.error (validate_rational_equation s).2
  else
    match parseEqStr s with
    | some (l, r) => Except.ok (computeCore l r (validate_rational_equation s).2)
    | none => Except.error (validate_rational_equation s).2

/-! ### Renderer data projections (olol_hahahaa.py lines 215-382)

`stepwise_rational_solution_concise` and
`stepwise_rational_solution_latex` both start by calling
`compute_rational_solution_data` and only format its fields.  The
projections below extract exactly the mathematical content each mode
prints: the final valid-root list, the extraneous list and the per-root
verification verdicts. -/

/-- Mathematical content printed by one rendering mode. -/
structure RenderContent where
  final_roots : List ℚ
  extraneous : List ℚ
  verdicts : List (ℚ × Bool)
deriving DecidableEq, Repr

/-- Content of the concise mode: pure projection of the analyzer record
(olol_hahahaa.py lines 215-291). -/
def conciseContent (s : String) : Except String RenderContent :=
  (compute_rational_solution_data s).map (fun d =>
    { final_roots := d.valid_solutions
      extraneous := d.extraneous_solutions
      verdicts := d.verification.map (fun r => (r.solution, r.satisfies)) })

/-- Content of the LaTeX mode: pure projection of the analyzer record
(olol_hahahaa.py lines 294-382). -/
def latexContent (s : String) : Except String RenderContent :=
  (compute_rational_solution_data s).map (fun d =>
    { final_roots := d.valid_solutions
      extraneous := d.extraneous_solutions
      verdicts := d.verification.map (fun r => (r.solution, r.satisfies)) })

/-! ### The narrated mode re-derives its mathematics
(`stepwise_rational_solution_with_explanations`, olol_hahahaa.py lines
384-732): it never calls `compute_rational_solution_data`; it extracts
denominators itself, solves degree-1/2 polynomials through the explicit
quadratic formula (producing both formula branches even for a double
root), and accepts a root by the numeric `< 1e-8` comparison of the two
substituted sides. -/

/-- Numeric tolerance 1e-8 used by the narrated verification. -/
def epsQ : ℚ := 1 / 100000000

/-- Denominator list the narrated mode derives for itself
(olol_hahahaa.py lines 413-416). -/
def narratedDenominators (lhs rhs : Expr) : List Expr :=
  (dedupListE (extract_denominators lhs ++ extract_denominators rhs)).filter
    (fun d => !(exprIsOneB d))

/-- Cleared sides the narrated mode derives for itself (olol_hahahaa.py
lines 501-554): multiply by its own lcm when denominators exist, otherwise
keep the sides. -/
def narratedCleared (lhs rhs : Expr) : RatFun × RatFun :=
  let dens := narratedDenominators lhs rhs
  if dens.isEmpty then (toRat lhs, toRat rhs)
  else
    let lcd := polyLcmList (dens.map (fun d => exprPolyOf (factorE d)))
    (ratCancel (ratMul (toRat lhs) (lcd, [1])), ratCancel (ratMul (toRat rhs) (lcd, [1])))

/-- Root list the narrated mode computes for itself (olol_hahahaa.py lines
593-650): degree 1 by isolation, degree 2 by the quadratic formula — both
branches are appended, so a double root appears twice — and other degrees
through the engine solver. -/
def narratedSols (lhs rhs : Expr) : List ℚ :=
  let cl := narratedCleared lhs rhs
  let diff := ratCancel (ratSub cl.1 cl.2)
  match trimP diff.2 with
  | [k] =>
    let p := polyScale (1 / k) diff.1
    match trimP p with
    | [b, a] => if a == 0 then [] else [-b / a]
    | [c, b, a] =>
      let d := b * b - 4 * a * c
      match ratSqrtExact d with
      | none => []
      | some s => [(-b + s) / (2 * a), (-b - s) / (2 * a)]
    | t => solveQ t
  | _ => []

/-- Valid-solution list of the narrated mode (olol_hahahaa.py lines
682-713): a root is kept iff both substituted sides evaluate and agree
numerically within 1e-8 (an exception skips the root); this is a numeric
criterion, unlike the analyzer's symbolic one. -/
def narratedValidSolutions (lhs rhs : Expr) : List ℚ :=
  (narratedSols lhs rhs).foldl
    (fun acc sol =>
      match evalExpr lhs sol, evalExpr rhs sol with
      | some a, some b => if |a - b| < epsQ then acc ++ [sol] else acc
      | _, _ => acc)
    []

/-! ### Embedding of the `lcd.py` text normalizer

All stages are ported on character lists.  Python's `re.sub` calls are
translated by their operational meaning on the specific patterns used
(leftmost scanning, zero-width lookaround insertions, non-overlapping
two-character rewrites). -/

/-- Python `\s` whitespace class (space, tab, newline, carriage return,
vertical tab, form feed). -/
def isWsP (c : Char) : Bool :=
  c = ' ' || c = '\t' || c = '\n' || c = '\r' || c.val = 11 || c.val = 12

/-- Python `str.strip()`. -/
def pyStrip (s : List Char) : List Char :=
  ((s.dropWhile isWsP).reverse.dropWhile isWsP).reverse

/-- Drop the last n elements (Python slice `s[:-n]`, clamped). -/
def dropLastN (n : Nat) (l : List Char) : List Char := l.take (l.length - n)

/-- Collapse every whitespace run to a single space
(`re.sub(r'\s+', ' ', s)`). -/
def collapseWsAux : Bool → List Char → List Char
  | _, [] => []
  | inWs, c :: rest =>
    if isWsP c then
      if inWs then collapseWsAux true rest else ' ' :: collapseWsAux true rest
    else c :: collapseWsAux false rest

/-- Whitespace-run collapse entry point. -/
def collapseWs (s : List Char) : List Char := collapseWsAux false s

/-- Decidable prefix test on character lists. -/
def isPrefixL (pat s : List Char) : Bool := List.isPrefixOf pat s

/-- Split at the first occurrence of a character-list pattern, returning the
parts before and after it. -/
def splitFirstSub (pat : List Char) : List Char → Option (List Char × List Char)
  | [] => if pat.isEmpty then some ([], []) else none
  | c :: rest =>
    if isPrefixL pat (c :: rest) then some ([], (c :: rest).drop pat.length)
    else
      match splitFirstSub pat rest with
      | none => none
      | some (l, r) => some (c :: l, r)

/-- Python `str.replace(pat, rep)`: replace all non-overlapping leftmost
occurrences, never rescanning a replacement. -/
def replaceAllSub (pat rep : List Char) : Nat → List Char → List Char
  | 0, s => s
  | Nat.succ fuel, s =>
    match s with
    | [] => []
    | c :: rest =>
      if !pat.isEmpty && isPrefixL pat s then rep ++ replaceAllSub pat rep fuel (s.drop pat.length)
      else c :: replaceAllSub pat rep fuel rest

/-- String-level `str.replace`. -/
def pyReplace (s pat rep : String) : String :=
  String.mk (replaceAllSub pat.data rep.data s.data.length s.data)

/-- Remove bracketed blocks (`re.sub(r'\[.*?\]', '', s)`): non-greedy
leftmost spans; `.` does not cross a newline, in which case the scan
resumes after the failed opening bracket. -/
def removeBracketBlocks : Nat → List Char → List Char
  | 0, s => s
  | Nat.succ fuel, s =>
    match splitFirstSub ['['] s with
    | none => s
    | some (before, after) =>
      match splitFirstSub [']'] after with
      | none => s
      | some (span, rest) =>
        if span.contains '\n' then before ++ '[' :: removeBracketBlocks fuel after
        else before ++ removeBracketBlocks fuel rest

/-- Embedding of `clean_ocr_artifacts` (lcd.py lines 140-159): truncate at
the first TeX linebreak, drop square-bracketed blocks, replace newline
characters by spaces, collapse whitespace and strip. -/
def clean_ocr_artifacts (s0 : List Char) : List Char :=
  let s :=
    match splitFirstSub ['\\', '\\'] s0 with
    | some (before, _) => before
    | none => s0
  let s := removeBracketBlocks s.length s
  let s := replaceAllSub ['\n'] [' '] s.length s
  let s := replaceAllSub ['\r'] [' '] s.length s
  pyStrip (collapseWs s)

/-- Unwrap `$...$` / `$$...$$` math delimiters. -/
def unwrapDollars (s : List Char) : List Char :=
  if isPrefixL ['$', '$'] s && isPrefixL ['$', '$'] s.reverse then
    pyStrip (dropLastN 2 (s.drop 2))
  else if isPrefixL ['$'] s && isPrefixL ['$'] s.reverse then
    pyStrip (dropLastN 1 (s.drop 1))
  else s

/-- Zero-width-insertion character of the invisible-character class
`[\u200B-\u200D\uFEFF\u00A0]`. -/
def isInvisibleChar (c : Char) : Bool :=
  (0x200B ≤ c.val && c.val ≤ 0x200D) || c.val = 0xFEFF || c.val = 0x00A0

/-- Characters allowed inside a `\frac` shorthand argument
(`[^{\\\s]+`). -/
def fracTokChar (c : Char) : Bool := !(c = '{' || c = '\\' || isWsP c)

/-- Rewrite of `\frac a b` shorthand into `\frac{a}{b}`
(`re.sub(r'\\frac\s*([^{\\\s]+)\s*([^{\\\s]+)', ...)`), including the
backtracking split of a single token into its last character. -/
def fracFix : Nat → List Char → List Char
  | 0, s => s
  | Nat.succ fuel, s =>
    match s with
    | [] => []
    | c :: rest =>
      if isPrefixL ['\\', 'f', 'r', 'a', 'c'] s then
        let t0 := s.drop 5
        let t1 := t0.dropWhile isWsP
        let run1 := t1.takeWhile fracTokChar
        let t2 := t1.drop run1.length
        let t3 := t2.dropWhile isWsP
        let run2 := t3.takeWhile fracTokChar
        if run1.isEmpty then c :: fracFix fuel rest
        else if !run2.isEmpty then
          ('\\' :: ('f' :: ('r' :: ('a' :: ('c' :: ('{' :: run1 ++ '}' :: '{' :: run2 ++ ['}']))))))
            ++ fracFix fuel (t3.drop run2.length)
        else if run1.length ≥ 2 then
          ('\\' :: ('f' :: ('r' :: ('a' :: ('c' :: ('{' :: run1.dropLast ++ '}' :: '{' :: [run1.getLastD ' '] ++ ['}']))))))
            ++ fracFix fuel t2
        else c :: fracFix fuel rest
      else c :: fracFix fuel rest

/-- Zero-width insertion of `*` between adjacent characters of the two
classes (`re.sub(r'(?<=A)(?=B)', '*', s)`), applied at every qualifying
boundary. -/
def insertBoundary (p q : Char → Bool) : List Char → List Char
  | a :: b :: rest =>
    if p a && q b then a :: '*' :: insertBoundary p q (b :: rest)
    else a :: insertBoundary p q (b :: rest)
  | l => l

/-- Rewrite `X \s* Y` boundaries to `X*Y`
(`re.sub(r'(?<=A)\s*(?=B)', '*', s)`): the whitespace run between the two
classes is consumed and replaced by `*`. -/
def insertStarSkipWs (p q : Char → Bool) : Nat → List Char → List Char
  | 0, s => s
  | Nat.succ fuel, s =>
    match s with
    | [] => []
    | a :: rest =>
      if p a then
        let r2 := rest.dropWhile isWsP
        match r2 with
        | b :: _ => if q b then a :: '*' :: insertStarSkipWs p q fuel r2
                    else a :: insertStarSkipWs p q fuel rest
        | [] => a :: rest
      else a :: insertStarSkipWs p q fuel rest

/-- Rewrite `) \s* (lookahead letter-or-paren)` to `)*`
(`re.sub(r'\)\s*(?=[A-Za-z\(])', ')*', s)`). -/
def parenStarFix : Nat → List Char → List Char
  | 0, s => s
  | Nat.succ fuel, s =>
    match s with
    | [] => []
    | a :: rest =>
      if a = ')' then
        let r2 := rest.dropWhile isWsP
        match r2 with
        | b :: _ => if b.isAlpha || b = '(' then ')' :: '*' :: parenStarFix fuel r2
                    else ')' :: parenStarFix fuel rest
        | [] => ')' :: rest
      else a :: parenStarFix fuel rest

/-- Rewrite `(lookbehind letter-or-close-paren) \s* (` to `*(`
(`re.sub(r'(?<=[A-Za-z\)])\s*\(', '*(', s)`). -/
def alphaParenFix : Nat → List Char → List Char
  | 0, s => s
  | Nat.succ fuel, s =>
    match s with
    | [] => []
    | a :: rest =>
      if a.isAlpha || a = ')' then
        let r2 := rest.dropWhile isWsP
        match r2 with
        | '(' :: r3 => a :: '*' :: '(' :: alphaParenFix fuel r3
        | _ => a :: alphaParenFix fuel rest
      else a :: alphaParenFix fuel rest

/-- Letter-or-open-paren class used by the bracket-factor insertions. -/
def isAlphaOrOpen (c : Char) : Bool := c.isAlpha || c = '('

/-- Letter-or-close-paren class. -/
def isAlphaOrClose (c : Char) : Bool := c.isAlpha || c = ')'

/-- Embedding of `clean_unmatched_parens` (lcd.py lines 261-277): when
closing parentheses outnumber opening ones the whole leading run of `)` is
removed (the anchored greedy pattern removes the full run in one
substitution), and symmetrically for a trailing run of `(`. -/
def cleanUnmatchedParens (txt : List Char) : List Char :=
  if txt.isEmpty then txt
  else
    let t1 :=
      if txt.count '(' < txt.count ')' then txt.dropWhile (fun c => c = ')') else txt
    let t2 :=
      if t1.count ')' < t1.count '(' then (t1.reverse.dropWhile (fun c => c = '(')).reverse else t1
    pyStrip t2

/-- Factor normalization of the preprocessing bracket handler (lcd.py
lines 242-258): strip, insert `*` after digits before letters or `(`, and
rewrite letter/`)`-to-letter/`(` boundaries across whitespace. -/
def bracketFactorV1 (txt : List Char) : List Char :=
  if txt.isEmpty then txt
  else
    let t := pyStrip txt
    let t := insertBoundary (fun c => c.isDigit) isAlphaOrOpen t
    insertStarSkipWs isAlphaOrClose isAlphaOrOpen t.length t

/-- Unwrap decorative balanced parentheses (the `while` loop of
`norm_factor`, lcd.py lines 385-395). -/
def unwrapDecorativeParens : Nat → List Char → List Char
  | 0, t => t
  | Nat.succ fuel, t =>
    if isPrefixL ['('] t && isPrefixL [')'] t.reverse then
      let inner := dropLastN 1 (t.drop 1)
      if inner.count '(' == inner.count ')' then
        match inner with
        | c :: _ =>
          if c = '+' || c = '-' || c = '*' || c = '/' || c = '=' then t
          else unwrapDecorativeParens fuel (pyStrip inner)
        | [] => unwrapDecorativeParens fuel (pyStrip inner)
      else t
    else t

/-- Embedding of `norm_factor` (lcd.py lines 379-401): strip, unwrap
decorative parentheses, then the three multiplication insertions. -/
def normFactorV2 (txt : List Char) : List Char :=
  if txt.isEmpty then txt
  else
    let t := pyStrip txt
    let t := unwrapDecorativeParens t.length t
    let t := insertBoundary (fun c => c.isDigit) isAlphaOrOpen t
    let t := insertStarSkipWs isAlphaOrClose isAlphaOrOpen t.length t
    parenStarFix t.length t

/-- Shared inner/postfix extraction of the two bracket-equation handlers
(lcd.py lines 196-236 and 344-372, which are textually identical): locate
the bracketed segment after `[`, tolerating a missing `]` by inferring the
boundary from a `)`/`=` structure. -/
def bracketSplit (after : List Char) : List Char × List Char :=
  match splitFirstSub [']'] after with
  | some (inner, rest) => (inner, pyStrip rest)
  | none =>
    match splitFirstSub [')'] after with
    | some (seg, remaining) =>
      if seg.contains '=' then
        match splitFirstSub [']'] remaining with
        | none => (seg, pyStrip remaining)
        | some (a, b) => (seg ++ ')' :: a, pyStrip b)
      else (pyStrip after, [])
    | none => (pyStrip after, [])

/-- Rebuild the equation from the bracket pieces:
`total*(lhs)=total*(rhs)` with `total` the `*`-join of the nonempty
normalized prefix and postfix, defaulting to `1`. -/
def bracketRebuild (pre post lhsRaw rhsRaw : List Char) : List Char :=
  let parts := [pre, post].filter (fun p => !p.isEmpty)
  let total := if parts.isEmpty then ['1'] else List.intercalate ['*'] parts
  total ++ '*' :: '(' :: pyStrip lhsRaw ++ ')' :: '=' :: total ++ '*' :: '(' :: pyStrip rhsRaw ++ [')']

/-- Bracket-equation stage of `preprocess_latex_for_rationals` (lcd.py
lines 188-293). -/
def bracketStageV1 (s : List Char) : List Char :=
  if s.contains '[' && s.contains '=' then
    match splitFirstSub ['['] s with
    | none => s
    | some (beforeBr, after) =>
      let preRaw := pyStrip beforeBr
      let ip := bracketSplit after
      if ip.1.contains '=' then
        match splitFirstSub ['='] ip.1 with
        | none => s
        | some (lhsRaw, rhsRaw) =>
          bracketRebuild (cleanUnmatchedParens (bracketFactorV1 preRaw))
            (cleanUnmatchedParens (bracketFactorV1 ip.2)) lhsRaw rhsRaw
      else s
  else s

/-- Bracket-equation stage of `to_checker_equation` (lcd.py lines
338-414), which uses `norm_factor` instead. -/
def bracketStageV2 (s : List Char) : List Char :=
  if s.contains '[' && s.contains '=' then
    match splitFirstSub ['['] s with
    | none => s
    | some (beforeBr, after) =>
      let preRaw := pyStrip beforeBr
      let ip := bracketSplit after
      if ip.1.contains '=' then
        match splitFirstSub ['='] ip.1 with
        | none => s
        | some (lhsRaw, rhsRaw) =>
          bracketRebuild (normFactorV2 preRaw) (normFactorV2 ip.2) lhsRaw rhsRaw
      else s
  else s

/-- Embedding of `preprocess_latex_for_rationals` (lcd.py lines 161-296). -/
def preprocess_latex_for_rationals (s0 : List Char) : List Char :=
  let s := pyStrip s0
  let s := clean_ocr_artifacts s
  let s := unwrapDollars s
  let s := replaceAllSub "\\dfrac".data "\\frac".data s.length s
  let s := replaceAllSub "\\tfrac".data "\\frac".data s.length s
  let s := replaceAllSub [Char.ofNat 0x2212] ['-'] s.length s
  let s := replaceAllSub "\\times".data ['*'] s.length s
  let s := replaceAllSub "\\cdot".data ['*'] s.length s
  let s := replaceAllSub [Char.ofNat 0x00D7] ['*'] s.length s
  let s := replaceAllSub "\\,".data [] s.length s
  let s := replaceAllSub "\\;".data [] s.length s
  let s := replaceAllSub "\\!".data [] s.length s
  let s := s.filter (fun c => !isInvisibleChar c)
  let s := fracFix s.length s
  let s := bracketStageV1 s
  pyStrip (collapseWs s)

/-- Split `Eq(lhs,rhs)` content at its first parenthesis-depth-0 comma. -/
def topCommaSplit : Int → List Char → Option (List Char × List Char)
  | _, [] => none
  | depth, c :: rest =>
    if c = '(' then
      match topCommaSplit (depth + 1) rest with
      | none => none
      | some (l, r) => some (c :: l, r)
    else if c = ')' then
      match topCommaSplit (depth - 1) rest with
      | none => none
      | some (l, r) => some (c :: l, r)
    else if c = ',' && depth = 0 then some ([], rest)
    else
      match topCommaSplit depth rest with
      | none => none
      | some (l, r) => some (c :: l, r)

/-- The `Eq(lhs,rhs)` unwrapping stage of `to_checker_equation` (lcd.py
lines 314-329). -/
def eqWrapperStage (s : List Char) : List Char :=
  if isPrefixL ['E', 'q', '('] s && isPrefixL [')'] s.reverse then
    let content := dropLastN 1 (s.drop 3)
    match topCommaSplit 0 content with
    | some (l, r) => pyStrip l ++ '=' :: pyStrip r
    | none => s
  else s

/-- Model of `latex_to_sympy_via_latex2sympy` (lcd.py lines 540-599),
whose core is the external latex2sympy2 engine: after LaTeX
preprocessing, a string with exactly one `=` whose two sides parse yields
an equality; every other outcome (bare expression, solver list, parse
failure) never produces an equality and is modelled as `none`, which makes
the callers own `isinstance(expr, Eq)` test fail. -/
def latexRecoverEq (s : String) : Option (Expr × Expr) :=
  let t := preprocess_latex_for_rationals s.data
  if t.count '=' == 1 then
    match splitOnceChar '=' t with
    | some (l, r) =>
      match parseExprStr (String.mk l), parseExprStr (String.mk r) with
      | some le, some re => some (le, re)
      | _, _ => none
    | none => none
  else none

/-- Stage chain of `to_checker_equation` before the final guard (lcd.py
lines 308-419): strip, LaTeX preprocessing, `Eq(...)` unwrapping,
comma-as-equals, bracket-equation recovery, and the three
explicit-multiplication insertions. -/
def checkerStages (input_text : String) : List Char :=
  let s := pyStrip input_text.data
  let s := preprocess_latex_for_rationals s
  let s := eqWrapperStage s
  let s := if s.contains ',' && !s.contains '=' then s.map (fun c => if c = ',' then '=' else c) else s
  let s := bracketStageV2 s
  let s := insertBoundary (fun c => c.isDigit) (fun c => c.isAlpha) s
  let s := parenStarFix s.length s
  alphaParenFix s.length s

/-- Embedding of `to_checker_equation` (lcd.py lines 298-431). -/
def to_checker_equation (input_text : String) : Except String String :=
  if (pyStrip input_text.data).isEmpty then Except.error "Empty equation"
  else if (checkerStages input_text).count '=' == 1 then
    Except.ok (String.mk (checkerStages input_text))
  else
    match latexRecoverEq (String.mk (checkerStages input_text)) with
    | some (l, r) => Except.ok (exprToString l ++ "=" ++ exprToString r)
    | none => Except.error "Equation must contain exactly one ="

/-! ### Canonical equation format (spec §6)

The predicate below renders the spec description of the canonical
equation string format: ASCII with explicit operators, exactly one `=`,
balanced parentheses, explicit multiplication (no implicit juxtaposition)
and normalized single-space whitespace. -/

/-- Characters of the canonical ASCII equation alphabet: letters, digits,
`+ - * / ( ) = .` and the space. -/
def canonicalChar (c : Char) : Bool :=
  c.isAlpha || c.isDigit || c = '+' || c = '-' || c = '*' || c = '/' ||
  c = '(' || c = ')' || c = '=' || c = '.' || c = ' '

/-- Balanced-parentheses check (never negative depth, zero at the end). -/
def parenBalancedAux : Nat → List Char → Bool
  | depth, [] => depth == 0
  | depth, c :: rest =>
    if c = '(' then parenBalancedAux (depth + 1) rest
    else if c = ')' then
      match depth with
      | 0 => false
      | Nat.succ d => parenBalancedAux d rest
    else parenBalancedAux depth rest

/-- No two consecutive spaces. -/
def noDoubleSpace : List Char → Bool
  | a :: b :: rest => !(a = ' ' && b = ' ') && noDoubleSpace (b :: rest)
  | _ => true

/-- Explicit-multiplication adjacency discipline: no digit immediately
followed by a letter, no `)` followed (across spaces) by a letter or `(`,
and no letter or `)` followed (across spaces) by `(`. -/
def explicitMulOK : List Char → Bool
  | [] => true
  | a :: rest =>
    let immediateBad :=
      match rest with
      | b :: _ => a.isDigit && b.isAlpha
      | [] => false
    let skipBad :=
      match rest.dropWhile (fun c => c = ' ') with
      | b :: _ =>
        (a = ')' && (b.isAlpha || b = '(')) ||
        ((a.isAlpha || a = ')') && b = '(')
      | [] => false
    !immediateBad && !skipBad && explicitMulOK rest

/-- Canonical equation string format, following the spec words: ASCII
alphabet with explicit `*`, `**` and `/`, exactly one `=`, balanced
parentheses, explicit multiplication, no leading/trailing or doubled
whitespace. -/
def CanonicalFormat (s : String) : Bool :=
  let l := s.data
  l.all canonicalChar &&
  l.count '=' == 1 &&
  parenBalancedAux 0 l &&
  (match l with | c :: _ => !(c = ' ') | [] => false) &&
  (match l.reverse with | c :: _ => !(c = ' ') | [] => false) &&
  noDoubleSpace l &&
  explicitMulOK l

/-! ### Embedding of `solution_analysis.py` (student solution checker)

The embedding covers the evaluation core the claims are about: equation
cleaning and parsing, denominator/restriction/LCD preprocessing, the
student-value parser, the correctness decision and the extraneous-root
report.  The prose artifacts of the result dictionary (concept-detection
flags, feedback strings, verification narration, remedial steps) are
outside every claim and are not modelled. -/

/-- Substring containment (Python `pat in s`). -/
def containsSubStr (pat s : String) : Bool := (splitFirstSub pat.data s.data).isSome

/-- ASCII lower-casing (Python `str.lower` on the ASCII range). -/
def asciiLowerChar (c : Char) : Char :=
  if 'A' ≤ c && c ≤ 'Z' then Char.ofNat (c.toNat + 32) else c

/-- Lower-case a string (ASCII). -/
def asciiLower (s : String) : String := String.mk (s.data.map asciiLowerChar)

/-- Modelled from the spec: `step.py` (absent from the source tree)
provides `normalize_math_expression`; spec §4.5 step 2 says each student
line is normalized with the same implicit-multiplication and
symbol-cleanup rules as the Normalizer (§4.1), applied independently per
line.  The model maps typographic operators to ASCII and inserts explicit
multiplication signs; the spec introduces no case folding here. -/
def normalize_math_expression (s : String) : String :=
  let t := pyReplace s (String.mk [Char.ofNat 0x2212]) "-"
  let t := pyReplace t (String.mk [Char.ofNat 0x00D7]) "*"
  let t := pyReplace t (String.mk [Char.ofNat 0x00F7]) "/"
  insert_multiplication_signs t

/-- Modelled from the spec: `step.py` (absent from the source tree)
provides `contains_text_or_symbols`; spec §4.5 step 3 classifies a line as
prose when it contains alphabetic narrative. -/
def contains_text_or_symbols (s : String) : Bool := s.data.any (fun c => c.isAlpha)

/-- Value of a parsed student answer: an expression of the modelled
grammar, or a bare non-`x` symbol (sympy `Symbol`) such as `X`. -/
inductive SVal where
  | exprV (e : Expr)
  | symV (name : String)
deriving DecidableEq, Repr

/-- Model of `sympy.sympify` on student-answer fragments: the
single-variable grammar, plus a bare letter parsed as a symbol (sympy
creates a `Symbol` for any identifier; the model keeps the single-letter
case the checker meets). -/
def sympifyStudent (s : String) : Option SVal :=
  match parseExprStr s with
  | some e => some (SVal.exprV e)
  | none =>
    match (pyStrip s.data) with
    | [c] => if c.isAlpha then some (SVal.symV (String.mk [c])) else none
    | _ => none

/-- Try the normalize-then-sympify sequence of `_parse_student_value` on
one candidate (solution_analysis.py lines 101-108). -/
def tryCandidate (c : String) : Option SVal :=
  let normalized := normalize_math_expression c
  if normalized.data.isEmpty then none else sympifyStudent normalized

/-- Scan equation-like lines for an `x = ...` pattern
(solution_analysis.py lines 110-121): detection is case-insensitive but
the parsed fragment keeps the original line text after its first `=`. -/
def scanLinesForValue : List String → Option SVal
  | [] => none
  | line :: rest =>
    let lower := asciiLower line
    if containsSubStr "x =" lower || containsSubStr "x=" lower then
      match splitOnceChar '=' line.data with
      | some (_, mathPart) =>
        match tryCandidate (String.mk (pyStrip mathPart)) with
        | some v => some v
        | none => scanLinesForValue rest
      | none => scanLinesForValue rest
    else scanLinesForValue rest

/-- Embedding of `_parse_student_value` (solution_analysis.py lines
85-123): fold `X` to `x`, strip an `x =` prefix, try the candidate (and
both `±` variants), then fall back to scanning the provided lines. -/
def parse_student_value (answer : String) (equations : List String) : Option SVal :=
  let clean0 := String.mk (pyStrip (pyReplace answer "X" "x").data)
  let clean :=
    if isPrefixL "x = ".data clean0.data then String.mk (clean0.data.drop 4)
    else if isPrefixL "x=".data clean0.data then String.mk (clean0.data.drop 2)
    else clean0
  let pm := String.mk [Char.ofNat 0x00B1]
  let candidates :=
    if containsSubStr pm clean then [clean, pyReplace clean pm "+", pyReplace clean pm "-"]
    else [clean]
  match candidates.firstM tryCandidate with
  | some v => some v
  | none => scanLinesForValue equations

/-- Constant value of a student expression, when it has one (model of
`sympy.N(e, 8)` being a number: an expression still containing the
variable is not a number and the `< 1e-8` comparison raises). -/
def svalConst : SVal → Option ℚ
  | SVal.exprV e =>
    let c := ratCancel (toRat e)
    match trimP c.1, trimP c.2 with
    | [], [k] => some (0 / k)
    | [n], [k] => some (n / k)
    | _, _ => none
  | SVal.symV _ => none

/-- The numeric match test of the grading loop (solution_analysis.py lines
454-461): `abs(sympy.N(student_value - sol, 8)) < 1e-8`, where a
non-numeric difference raises and the root is skipped. -/
def svalCloseTo (v : SVal) (sol : ℚ) : Bool :=
  match svalConst v with
  | some q => |q - sol| < epsQ
  | none => false

/-- Evaluation-relevant slice of the `analyze_student_solution` result
dictionary. -/
structure SAResult where
  ok : Bool
  error : String
  cleaned_equation : String
  denominators : List Expr
  restrictions : List ℚ
  lcd : Poly
  simplified_lhs : RatFun
  simplified_rhs : RatFun
  student_value : Option SVal
  answer_correct : Bool
  actual_solutions : List ℚ
  extraneous_solutions : List ℚ
deriving DecidableEq, Repr

/-- An error result of the checker (`{"status": "error", ...}`). -/
def saError (msg : String) : SAResult :=
  { ok := false, error := msg, cleaned_equation := "", denominators := [],
    restrictions := [], lcd := [1], simplified_lhs := ([], [1]),
    simplified_rhs := ([], [1]), student_value := none,
    answer_correct := false, actual_solutions := [], extraneous_solutions := [] }

/-- The additive components the checker iterates over
(solution_analysis.py lines 210-214): the args of an `Add`, otherwise the
expression itself; sympy lists the args of `a - b` as `a` and `-b`. -/
def saComponents (e : Expr) : List Expr :=
  match e with
  | Expr.add a b => [a, b]
  | Expr.sub a b => [a, negE b]
  | _ => [e]

/-- Denominator collection of the checker (solution_analysis.py lines
206-227): per top-level component, the denominator of `together` when it
is not literally 1, together with its roots as restrictions. -/
def saCollectDenoms (lhs rhs : Expr) : List Expr × List ℚ :=
  ([lhs, rhs].flatMap saComponents).foldl
    (fun acc component =>
      let den := (togetherND component).2
      if den = Expr.num 1 then acc
      else (acc.1 ++ [den], acc.2 ++ solveExprZero den))
    ([], [])

/-- Classification of a normalized student line (solution_analysis.py
lines 418-436): equation-like lines versus prose notes. -/
def saClassifyLines (normalized : List String) : List String × List String :=
  normalized.foldl
    (fun acc line =>
      let stripped := String.mk (pyStrip line.data)
      if stripped.data.isEmpty then acc
      else if stripped.data.contains '=' then (acc.1 ++ [stripped], acc.2)
      else if ("+-*/()xX^".data ++ [Char.ofNat 0x00F7, Char.ofNat 0x00B2, Char.ofNat 0x00B1, Char.ofNat 0x221A]).any
          (fun c => stripped.data.contains c) && stripped.data.length > 2 then
        (acc.1 ++ [stripped], acc.2)
      else if contains_text_or_symbols stripped then (acc.1, acc.2 ++ [stripped])
      else if stripped.data.any (fun c => c.isDigit) && stripped.data.length > 3 then
        (acc.1 ++ [stripped], acc.2)
      else (acc.1, acc.2 ++ [stripped]))
    ([], [])

/-- Core of `analyze_student_solution` after the equation string has been
cleaned (solution_analysis.py lines 150-480, evaluation slice). -/
def saAnalyzeCleaned (cleaned0 : String) (studentAnswer0 : String)
    (studentLines0 : List String) : SAResult :=
  let studentLines := (studentLines0.map (fun l => String.mk (pyStrip l.data))).filter
    (fun l => !l.isEmpty)
  let studentAnswer := String.mk (pyStrip studentAnswer0.data)
  let cleaned1 :=
    match to_checker_equation cleaned0 with
    | Except.ok t => t
    | Except.error _ => cleaned0
  let cleaned := insert_multiplication_signs cleaned1
  if cleaned.data.isEmpty then saError "Original equation is required."
  else
    let cleaned :=
      if !cleaned.data.contains '=' && cleaned.data.contains ',' then
        String.mk (cleaned.data.map (fun c => if c = ',' then '=' else c))
      else cleaned
    let cleaned :=
      if !cleaned.data.contains '=' then
        match latexRecoverEq cleaned with
        | some (l, r) => exprToString l ++ "=" ++ exprToString r
        | none => cleaned
      else cleaned
    if !cleaned.data.contains '=' then saError "Original equation must contain an = sign."
    else
      match parseEqStr cleaned with
      | none => saError "Unable to parse equation."
      | some (lhs, rhs) =>
        let collected := saCollectDenoms lhs rhs
        let denominatorsSimplified :=
          collected.1.foldl
            (fun acc den =>
              if exprIsOneB den then acc
              else if acc.all (fun ex => !(exprEqB den ex)) then acc ++ [den] else acc)
            []
        let uniqueRestrictions := collected.2.foldl appendUniqueQ []
        let lcdP : Poly :=
          if denominatorsSimplified.isEmpty then [1]
          else polyLcmList (denominatorsSimplified.map (fun d => exprPolyOf (factorE d)))
        let simplifiedLhs := ratCancel (ratMul (toRat lhs) (lcdP, [1]))
        let simplifiedRhs := ratCancel (ratMul (toRat rhs) (lcdP, [1]))
        let normalizedSolution := studentLines.map normalize_math_expression
        let classified := saClassifyLines normalizedSolution
        let studentEquations :=
          if classified.1.isEmpty && classified.2.isEmpty && !studentAnswer.data.isEmpty then
            [studentAnswer]
          else classified.1
        let studentValue := parse_student_value studentAnswer (studentEquations ++ classified.2)
        let standardForm := ratSub simplifiedLhs simplifiedRhs
        let sfc := ratCancel standardForm
        let actualSolutions := (solveQ sfc.1).filter (fun r => !(peval sfc.2 r == 0))
        let answerCorrect :=
          match studentValue with
          | some v => actualSolutions.any (fun sol => svalCloseTo v sol)
          | none => false
        let extraneous :=
          if denominatorsSimplified.isEmpty then []
          else actualSolutions.filter
            (fun sol => denominatorsSimplified.any (fun den => exprZeroAtB den sol))
        { ok := true
          error := ""
          cleaned_equation := cleaned
          denominators := denominatorsSimplified
          restrictions := uniqueRestrictions
          lcd := lcdP
          simplified_lhs := simplifiedLhs
          simplified_rhs := simplifiedRhs
          student_value := studentValue
          answer_correct := answerCorrect
          actual_solutions := actualSolutions
          extraneous_solutions := extraneous }

/-- Embedding of `analyze_student_solution` (solution_analysis.py lines
126-480, evaluation slice): the instructor equation is case-folded
(`X` to `x`) and stripped before any further processing. -/
def analyze_student_solution (originalEquation studentAnswer : String)
    (studentLines : List String) : SAResult :=
  saAnalyzeCleaned (String.mk (pyStrip (pyReplace originalEquation "X" "x").data))
    studentAnswer studentLines

/-! ### Fixed data used by theorem statements -/

/-- All messages the validator can return. -/
def validateMessages : List String :=
  [notAnEquationMsg, invalidFormatMsg, zeroDenomMsg, identityMsg,
   contradictionMsg, constantDenomMsg, proceedMsg]

/-- Messages that accompany a `True` verdict. -/
def validateOkMessages : List String := [identityMsg, constantDenomMsg, proceedMsg]

/-- Left side of the sample equation `1/(x-2) = 3/(x+1)`. -/
def sampleLhs : Expr := Expr.div (Expr.num 1) (Expr.sub Expr.var (Expr.num 2))

/-- Right side of the sample equation `1/(x-2) = 3/(x+1)`. -/
def sampleRhs : Expr := Expr.div (Expr.num 3) (Expr.add Expr.var (Expr.num 1))

/-! ## Theorems -/

/-- C1: on the instructor equation `1/(x-1)+1/(x+1)=2/(x**2-1)` the
cleared equation has the single root 1, which zeroes the denominators
`x-1` and `x**2-1`, so the Analyzer's valid set is empty and the checker
itself reports 1 as extraneous — yet `analyze_student_solution` marks the
declared answer `x = 1` correct, because the grading loop compares the
student value against every root of the cleared equation
(`actual_solutions`) instead of the valid set.  This contradicts the
claim (and spec Scenario F): a root of the cleared equation that zeroes a
denominator is accepted as a correct answer. -/
theorem checker_accepts_extraneous_root :
    (analyze_student_solution "1/(x-1)+1/(x+1)=2/(x**2-1)" "x = 1" []).answer_correct = true
    ∧ (analyze_student_solution "1/(x-1)+1/(x+1)=2/(x**2-1)" "x = 1" []).extraneous_solutions = [1]
    ∧ (compute_rational_solution_data "1/(x-1)+1/(x+1)=2/(x**2-1)").toOption.map
        (fun d => d.valid_solutions) = some [] :=
  ⟨by decide, by decide, by decide⟩

/-- C2 counterexample: for the identity `x=x` the validator returns the
verdict flag `True` with the identity message, and
`compute_rational_solution_data` therefore proceeds instead of
short-circuiting — refuting the claim that an `Identity` verdict stops the
pipeline and that only a `Valid` verdict reaches the Analyzer. -/
theorem identity_verdict_proceeds :
    validate_rational_equation "x=x" = (true, identityMsg)
    ∧ (compute_rational_solution_data "x=x").isOk = true :=
  ⟨by decide, by decide⟩

/-- Helper: membership in `appendUniqueQ`. -/
theorem mem_appendUniqueQ {l : List ℚ} {x z : ℚ} :
    z ∈ appendUniqueQ l x ↔ z ∈ l ∨ z = x := by
  unfold appendUniqueQ
  by_cases h : l.contains x
  · rw [if_pos h]
    constructor
    · exact Or.inl
    · rintro (hz | rfl)
      · exact hz
      · simpa using h
  · rw [if_neg h]
    simp

/-- Helper: membership characterization of the valid/extraneous partition
fold. -/
theorem partition_fold_mem (dens : List Expr) (z : ℚ) :
    ∀ (raw : List ℚ) (acc : List ℚ × List ℚ),
    (z ∈ (raw.foldl (partitionStep dens) acc).1 ↔
      z ∈ acc.1 ∨ (z ∈ raw ∧ dens.any (fun den => exprZeroAtB den z) = false))
    ∧ (z ∈ (raw.foldl (partitionStep dens) acc).2 ↔
      z ∈ acc.2 ∨ (z ∈ raw ∧ dens.any (fun den => exprZeroAtB den z) = true)) := by
  intro raw
  induction raw with
  | nil => simp
  | cons sol rest ih =>
    intro acc
    simp only [List.foldl_cons]
    by_cases hz : dens.any (fun den => exprZeroAtB den sol) = true
    · have hstep : partitionStep dens acc sol = (acc.1, appendUniqueQ acc.2 sol) := by
        unfold partitionStep
        rw [if_pos hz]
      rw [hstep]
      obtain ⟨ih1, ih2⟩ := ih (acc.1, appendUniqueQ acc.2 sol)
      constructor
      · rw [ih1]
        constructor
        · rintro (h1 | ⟨h2, h3⟩)
          · exact Or.inl h1
          · exact Or.inr ⟨List.mem_cons_of_mem _ h2, h3⟩
        · rintro (h1 | ⟨h2, h3⟩)
          · exact Or.inl h1
          · rcases List.mem_cons.mp h2 with rfl | h2
            · rw [hz] at h3; exact absurd h3 (by simp)
            · exact Or.inr ⟨h2, h3⟩
      · rw [ih2]
        simp only [mem_appendUniqueQ]
        constructor
        · rintro ((h1 | rfl) | ⟨h2, h3⟩)
          · exact Or.inl h1
          · exact Or.inr ⟨List.mem_cons_self _ _, hz⟩
          · exact Or.inr ⟨List.mem_cons_of_mem _ h2, h3⟩
        · rintro (h1 | ⟨h2, h3⟩)
          · exact Or.inl (Or.inl h1)
          · rcases List.mem_cons.mp h2 with rfl | h2
            · exact Or.inl (Or.inr rfl)
            · exact Or.inr ⟨h2, h3⟩
    · have hzf : dens.any (fun den => exprZeroAtB den sol) = false := by
        cases hb : dens.any (fun den => exprZeroAtB den sol)
        · rfl
        · exact absurd hb hz
      have hstep : partitionStep dens acc sol = (appendUniqueQ acc.1 sol, acc.2) := by
        unfold partitionStep
        rw [hzf]
        simp
      rw [hstep]
      obtain ⟨ih1, ih2⟩ := ih (appendUniqueQ acc.1 sol, acc.2)
      constructor
      · rw [ih1]
        simp only [mem_appendUniqueQ]
        constructor
        · rintro ((h1 | rfl) | ⟨h2, h3⟩)
          · exact Or.inl h1
          · exact Or.inr ⟨List.mem_cons_self _ _, hzf⟩
          · exact Or.inr ⟨List.mem_cons_of_mem _ h2, h3⟩
        · rintro (h1 | ⟨h2, h3⟩)
          · exact Or.inl (Or.inl h1)
          · rcases List.mem_cons.mp h2 with rfl | h2
            · exact Or.inl (Or.inr rfl)
            · exact Or.inr ⟨h2, h3⟩
      · rw [ih2]
        constructor
        · rintro (h1 | ⟨h2, h3⟩)
          · exact Or.inl h1
          · exact Or.inr ⟨List.mem_cons_of_mem _ h2, h3⟩
        · rintro (h1 | ⟨h2, h3⟩)
          · exact Or.inl h1
          · rcases List.mem_cons.mp h2 with rfl | h2
            · rw [hzf] at h3; exact absurd h3 (by simp)
            · exact Or.inr ⟨h2, h3⟩

/-- Helper: the analyzer record written out field by field. -/
theorem computeCore_def (lhs rhs : Expr) (msg : String) : computeCore lhs rhs msg =
    { lhs := lhs
      rhs := rhs
      denominators := computeDenoms lhs rhs
      excluded_values := computeExcluded lhs rhs
      lcd := computeLcd lhs rhs
      cleared_lhs := computeCleared lhs rhs lhs
      cleared_rhs := computeCleared lhs rhs rhs
      polynomial := ratSub (computeCleared lhs rhs lhs) (computeCleared lhs rhs rhs)
      raw_solutions := computeRaw lhs rhs
      valid_solutions := (computePartition lhs rhs).1
      extraneous_solutions := (computePartition lhs rhs).2
      verification := (computePartition lhs rhs).1.map (verifRecOf lhs rhs)
      validation_message := msg } := rfl

/-- C3: for every analyzed equation the raw roots are partitioned so that
a root lands in `extraneous_solutions` iff it is a raw root whose
substitution zeroes at least one DenominatorSet member, a root lands in
`valid_solutions` iff it is a raw root making every member nonzero, the
two lists are disjoint, and together they cover the raw roots. -/
theorem analyzer_partition_spec : ∀ (lhs rhs : Expr) (msg : String) (z : ℚ),
    (z ∈ (computeCore lhs rhs msg).extraneous_solutions ↔
      z ∈ (computeCore lhs rhs msg).raw_solutions ∧
        ∃ den ∈ (computeCore lhs rhs msg).denominators, exprZeroAtB den z = true)
    ∧ (z ∈ (computeCore lhs rhs msg).valid_solutions ↔
      z ∈ (computeCore lhs rhs msg).raw_solutions ∧
        ∀ den ∈ (computeCore lhs rhs msg).denominators, exprZeroAtB den z = false)
    ∧ ¬(z ∈ (computeCore lhs rhs msg).valid_solutions ∧
        z ∈ (computeCore lhs rhs msg).extraneous_solutions)
    ∧ (z ∈ (computeCore lhs rhs msg).raw_solutions →
        z ∈ (computeCore lhs rhs msg).valid_solutions ∨
        z ∈ (computeCore lhs rhs msg).extraneous_solutions) := by
  intro lhs rhs msg z
  have hmem := partition_fold_mem (computeDenoms lhs rhs) z (computeRaw lhs rhs) ([], [])
  have hval : (computeCore lhs rhs msg).valid_solutions = (computePartition lhs rhs).1 := by
    rw [computeCore_def]
  have hext : (computeCore lhs rhs msg).extraneous_solutions = (computePartition lhs rhs).2 := by
    rw [computeCore_def]
  have hraw : (computeCore lhs rhs msg).raw_solutions = computeRaw lhs rhs := by
    rw [computeCore_def]
  have hden : (computeCore lhs rhs msg).denominators = computeDenoms lhs rhs := by
    rw [computeCore_def]
  have hpart : computePartition lhs rhs =
      (computeRaw lhs rhs).foldl (partitionStep (computeDenoms lhs rhs)) ([], []) := rfl
  obtain ⟨h1, h2⟩ := hmem
  rw [hpart] at hval hext
  refine ⟨?_, ?_, ?_, ?_⟩
  · rw [hext, hraw, hden, h2]
    simp [List.any_eq_true]
  · rw [hval, hraw, hden, h1]
    constructor
    · rintro (h | ⟨ha, hb⟩)
      · exact absurd h (List.not_mem_nil z)
      · refine ⟨ha, ?_⟩
        intro den hd
        by_cases hzb : exprZeroAtB den z = true
        · exfalso
          have : (computeDenoms lhs rhs).any (fun den => exprZeroAtB den z) = true :=
            List.any_eq_true.mpr ⟨den, hd, hzb⟩
          rw [this] at hb
          exact absurd hb (by simp)
        · cases hc : exprZeroAtB den z
          · rfl
          · exact absurd hc hzb
    · rintro ⟨ha, hb⟩
      refine Or.inr ⟨ha, ?_⟩
      cases hc : (computeDenoms lhs rhs).any (fun den => exprZeroAtB den z)
      · rfl
      · obtain ⟨den, hd, hzb⟩ := List.any_eq_true.mp hc
        rw [hb den hd] at hzb
        exact absurd hzb (by simp)
  · rintro ⟨hv, he⟩
    rw [hval] at hv
    rw [hext] at he
    obtain (h | ⟨_, hb⟩) := (h1).mp hv
    · exact absurd h (List.not_mem_nil z)
    · obtain (h | ⟨_, hb2⟩) := (h2).mp he
      · exact absurd h (List.not_mem_nil z)
      · rw [hb] at hb2; exact absurd hb2 (by simp)
  · intro hr
    rw [hraw] at hr
    by_cases ha : (computeDenoms lhs rhs).any (fun den => exprZeroAtB den z) = true
    · right
      rw [hext, h2]
      exact Or.inr ⟨hr, ha⟩
    · left
      rw [hval, h1]
      refine Or.inr ⟨hr, ?_⟩
      cases hb : (computeDenoms lhs rhs).any (fun den => exprZeroAtB den z)
      · rfl
      · exact absurd hb ha

/-- C3 witness: on `1/(x-1)+1/(x+1)=2/(x**2-1)` the raw root 1 is covered
by the partition (it lands in the extraneous side, since it zeroes
`x-1`); the raw-membership hypothesis is discharged by computation. -/
theorem analyzer_partition_spec_witness :
    (1 : ℚ) ∈ (computeCore (Expr.add (Expr.div (Expr.num 1) (Expr.sub Expr.var (Expr.num 1)))
        (Expr.div (Expr.num 1) (Expr.add Expr.var (Expr.num 1))))
      (Expr.div (Expr.num 2) (Expr.sub (Expr.pow Expr.var 2) (Expr.num 1))) proceedMsg).valid_solutions ∨
    (1 : ℚ) ∈ (computeCore (Expr.add (Expr.div (Expr.num 1) (Expr.sub Expr.var (Expr.num 1)))
        (Expr.div (Expr.num 1) (Expr.add Expr.var (Expr.num 1))))
      (Expr.div (Expr.num 2) (Expr.sub (Expr.pow Expr.var 2) (Expr.num 1))) proceedMsg).extraneous_solutions :=
  (analyzer_partition_spec (Expr.add (Expr.div (Expr.num 1) (Expr.sub Expr.var (Expr.num 1)))
        (Expr.div (Expr.num 1) (Expr.add Expr.var (Expr.num 1))))
      (Expr.div (Expr.num 2) (Expr.sub (Expr.pow Expr.var 2) (Expr.num 1))) proceedMsg 1).2.2.2 (by decide)

/-- C6: the Analyzer builds one VerificationRecord per valid root by
substituting the root into the original (uncleared) sides, and the
`satisfies` flag is true iff both substitutions are defined and their
symbolic difference is zero — exact symbolic equality, not the numeric
1e-8 comparison, decides the flag. -/
theorem verification_symbolic_ground_truth : ∀ (lhs rhs : Expr) (msg : String),
    ((computeCore lhs rhs msg).verification.map (fun r => r.solution)
        = (computeCore lhs rhs msg).valid_solutions)
    ∧ ∀ rec ∈ (computeCore lhs rhs msg).verification,
        rec.lhs_eval = evalExpr lhs rec.solution
        ∧ rec.rhs_eval = evalExpr rhs rec.solution
        ∧ (rec.satisfies = true ↔
            ∃ a b, evalExpr lhs rec.solution = some a ∧ evalExpr rhs rec.solution = some b
              ∧ a - b = 0) := by
  intro lhs rhs msg
  have hver : (computeCore lhs rhs msg).verification
      = (computePartition lhs rhs).1.map (verifRecOf lhs rhs) := by
    rw [computeCore_def]
  have hval : (computeCore lhs rhs msg).valid_solutions = (computePartition lhs rhs).1 := by
    rw [computeCore_def]
  constructor
  · rw [hver, hval, List.map_map]
    have hcomp : ((fun r : VerifRec => r.solution) ∘ verifRecOf lhs rhs) = fun sol => sol := by
      funext sol
      rfl
    rw [hcomp]
    exact List.map_id _
  · intro rec hrec
    rw [hver] at hrec
    obtain ⟨sol, hsol, rfl⟩ := List.mem_map.mp hrec
    refine ⟨rfl, rfl, ?_⟩
    have hs : (verifRecOf lhs rhs sol).solution = sol := rfl
    rw [hs]
    cases hL : evalExpr lhs sol with
    | none =>
      simp only [verifRecOf, hL]
      constructor
      · intro h; exact absurd h (by simp)
      · rintro ⟨a, b, ha, _⟩; exact absurd ha (by simp)
    | some a =>
      cases hR : evalExpr rhs sol with
      | none =>
        simp only [verifRecOf, hL, hR]
        constructor
        · intro h; exact absurd h (by simp)
        · rintro ⟨a2, b, _, hb, _⟩; exact absurd hb (by simp)
      | some b =>
        simp only [verifRecOf, hL, hR, beq_iff_eq]
        constructor
        · intro h; exact ⟨a, b, rfl, rfl, h⟩
        · rintro ⟨a2, b2, ha2, hb2, hz⟩
          obtain rfl : a = a2 := by injection ha2
          obtain rfl : b = b2 := by injection hb2
          exact hz

/-- C6 witness: on `1/(x-2) = 3/(x+1)` the valid root 7/2 yields the
record whose `lhs_eval` really is the substitution of 7/2 into the
original left side (both sides evaluate to 2/3 and `satisfies` is true);
the membership hypothesis is discharged by computation. -/
theorem verification_symbolic_ground_truth_witness :
    (verifRecOf sampleLhs sampleRhs ((7 : ℚ)/2)).lhs_eval
      = evalExpr sampleLhs (verifRecOf sampleLhs sampleRhs ((7 : ℚ)/2)).solution :=
  ((verification_symbolic_ground_truth sampleLhs sampleRhs proceedMsg).2
    (verifRecOf sampleLhs sampleRhs ((7 : ℚ)/2)) (by decide)).1

/-- Helper: evaluation is additive. -/
theorem peval_polyAdd : ∀ (p q : Poly) (x : ℚ), peval (polyAdd p q) x = peval p x + peval q x := by
  intro p
  induction p with
  | nil => intro q x; simp [polyAdd, peval]
  | cons a p ih =>
    intro q x
    cases q with
    | nil => simp [polyAdd, peval]
    | cons b q2 =>
      simp only [polyAdd, peval, ih]
      ring

/-- Helper: evaluation respects scalar multiplication. -/
theorem peval_polyScale : ∀ (c : ℚ) (p : Poly) (x : ℚ), peval (polyScale c p) x = c * peval p x := by
  intro c p
  induction p with
  | nil => intro x; simp [polyScale, peval]
  | cons a p ih =>
    intro x
    simp only [polyScale, List.map_cons, peval] at *
    rw [ih]
    ring

/-- Helper: evaluation respects negation. -/
theorem peval_polyNeg : ∀ (p : Poly) (x : ℚ), peval (polyNeg p) x = -peval p x := by
  intro p
  induction p with
  | nil => intro x; simp [polyNeg, peval]
  | cons a p ih =>
    intro x
    simp only [polyNeg, List.map_cons, peval] at *
    rw [ih]
    ring

/-- Helper: evaluation is multiplicative. -/
theorem peval_polyMul : ∀ (p q : Poly) (x : ℚ), peval (polyMul p q) x = peval p x * peval q x := by
  intro p
  induction p with
  | nil => intro q x; simp [polyMul, peval]
  | cons a p ih =>
    intro q x
    simp only [polyMul, peval, peval_polyAdd, peval_polyScale, ih]
    ring

/-- Helper: evaluation respects powers. -/
theorem peval_polyPow : ∀ (p : Poly) (n : Nat) (x : ℚ), peval (polyPow p n) x = peval p x ^ n := by
  intro p n
  induction n with
  | zero => intro x; simp [polyPow, peval]
  | succ m ih =>
    intro x
    simp only [polyPow, peval_polyMul, ih]
    ring

/-- Helper: trimming trailing zeros does not change evaluation. -/
theorem peval_trim : ∀ (p : Poly) (x : ℚ), peval (trimP p) x = peval p x := by
  intro p
  induction p with
  | nil => intro x; simp [trimP]
  | cons c rest ih =>
    intro x
    unfold trimP
    cases htr : trimP rest with
    | nil =>
      have h0 : peval rest x = 0 := by
        rw [← ih x, htr]
        rfl
      by_cases hc : c = 0
      · rw [if_pos hc]
        simp [peval, h0, hc]
      · rw [if_neg hc]
        simp [peval, h0]
    | cons d tr =>
      have h2 : peval (d :: tr) x = peval rest x := by
        rw [← htr, ih]
      simp only [peval] at h2 ⊢
      rw [h2]

/-- Helper: semantically equal representatives evaluate equally. -/
theorem polyEqB_peval {p q : Poly} (h : polyEqB p q = true) (x : ℚ) : peval p x = peval q x := by
  unfold polyEqB at h
  have ht : trimP p = trimP q := by
    exact eq_of_beq h
  rw [← peval_trim p x, ← peval_trim q x, ht]

/-- Helper: a verified exact quotient reconstructs the dividend under
evaluation. -/
theorem polyDivExact_peval {a b qq : Poly} (h : polyDivExact a b = some qq) (x : ℚ) :
    peval a x = peval qq x * peval b x := by
  unfold polyDivExact at h
  by_cases hc : polyEqB (polyMul (polyDivMod a b).1 b) a = true
  · rw [if_pos hc] at h
    obtain rfl : (polyDivMod a b).1 = qq := by injection h
    rw [← polyEqB_peval hc x, peval_polyMul]
  · rw [if_neg hc] at h
    exact absurd h (by simp)

/-- Helper: cancelling a fraction preserves its value wherever the
original denominator is nonzero. -/
theorem ratCancel_eval (r : RatFun) (q : ℚ) (hd : peval r.2 q ≠ 0) :
    ratEvalOpt (ratCancel r) q = some (peval r.1 q / peval r.2 q) := by
  unfold ratCancel
  cases hn : polyDivExact r.1 (polyGcd r.1 r.2) with
  | none =>
    simp only [hn]
    unfold ratEvalOpt
    rw [if_neg hd]
  | some n =>
    cases hdd : polyDivExact r.2 (polyGcd r.1 r.2) with
    | none =>
      simp only [hn, hdd]
      unfold ratEvalOpt
      rw [if_neg hd]
    | some d =>
      simp only [hn, hdd]
      have h1 := polyDivExact_peval hn q
      have h2 := polyDivExact_peval hdd q
      have hg : peval (polyGcd r.1 r.2) q ≠ 0 := by
        intro h0
        rw [h2, h0, mul_zero] at hd
        exact hd rfl
      have hdq : peval d q ≠ 0 := by
        intro h0
        rw [h2, h0, zero_mul] at hd
        exact hd rfl
      unfold ratEvalOpt
      rw [if_neg hdq]
      congr 1
      rw [h1, h2, mul_div_mul_right _ _ hg]

/-- Helper: soundness of `evalExpr` against the rational-function
translation — a defined evaluation means the denominator polynomial is
nonzero there and the numerator evaluates to value times denominator. -/
theorem toRat_eval : ∀ (e : Expr) (q v : ℚ), evalExpr e q = some v →
    peval (toRat e).2 q ≠ 0 ∧ peval (toRat e).1 q = v * peval (toRat e).2 q := by
  intro e
  induction e with
  | num c =>
    intro q v h
    obtain rfl : c = v := by
      simpa [evalExpr] using h
    simp [toRat, polyC, peval]
  | var =>
    intro q v h
    obtain rfl : q = v := by
      simpa [evalExpr] using h
    simp [toRat, polyVar, peval]
  | add a b iha ihb =>
    intro q v h
    simp only [evalExpr] at h
    cases ha : evalExpr a q with
    | none => rw [ha] at h; exact absurd h (by simp)
    | some va =>
      cases hb : evalExpr b q with
      | none => rw [ha, hb] at h; exact absurd h (by simp)
      | some vb =>
        rw [ha, hb] at h
        obtain rfl : va + vb = v := by injection h
        obtain ⟨hda, hna⟩ := iha q va ha
        obtain ⟨hdb, hnb⟩ := ihb q vb hb
        simp only [toRat, ratAdd, peval_polyAdd, peval_polyMul]
        refine ⟨mul_ne_zero hda hdb, ?_⟩
        rw [hna, hnb]
        ring
  | sub a b iha ihb =>
    intro q v h
    simp only [evalExpr] at h
    cases ha : evalExpr a q with
    | none => rw [ha] at h; exact absurd h (by simp)
    | some va =>
      cases hb : evalExpr b q with
      | none => rw [ha, hb] at h; exact absurd h (by simp)
      | some vb =>
        rw [ha, hb] at h
        obtain rfl : va - vb = v := by injection h
        obtain ⟨hda, hna⟩ := iha q va ha
        obtain ⟨hdb, hnb⟩ := ihb q vb hb
        simp only [toRat, ratSub, ratAdd, ratNeg, peval_polyAdd, peval_polyMul, peval_polyNeg]
        refine ⟨mul_ne_zero hda hdb, ?_⟩
        rw [hna, hnb]
        ring
  | neg a iha =>
    intro q v h
    simp only [evalExpr] at h
    cases ha : evalExpr a q with
    | none => rw [ha] at h; exact absurd h (by simp)
    | some va =>
      rw [ha] at h
      obtain rfl : -va = v := by
        simpa using h
      obtain ⟨hda, hna⟩ := iha q va ha
      simp only [toRat, ratNeg, peval_polyNeg]
      refine ⟨hda, ?_⟩
      rw [hna]
      ring
  | mul a b iha ihb =>
    intro q v h
    simp only [evalExpr] at h
    cases ha : evalExpr a q with
    | none => rw [ha] at h; exact absurd h (by simp)
    | some va =>
      cases hb : evalExpr b q with
      | none => rw [ha, hb] at h; exact absurd h (by simp)
      | some vb =>
        rw [ha, hb] at h
        obtain rfl : va * vb = v := by injection h
        obtain ⟨hda, hna⟩ := iha q va ha
        obtain ⟨hdb, hnb⟩ := ihb q vb hb
        simp only [toRat, ratMul, peval_polyMul]
        refine ⟨mul_ne_zero hda hdb, ?_⟩
        rw [hna, hnb]
        ring
  | div a b iha ihb =>
    intro q v h
    simp only [evalExpr] at h
    cases ha : evalExpr a q with
    | none => rw [ha] at h; exact absurd h (by simp)
    | some va =>
      cases hb : evalExpr b q with
      | none => rw [ha, hb] at h; exact absurd h (by simp)
      | some vb =>
        rw [ha, hb] at h
        by_cases hvb : vb = 0
        · simp [hvb] at h
        · simp only [hvb, if_false] at h
          obtain rfl : va / vb = v := by
            simpa using h
          obtain ⟨hda, hna⟩ := iha q va ha
          obtain ⟨hdb, hnb⟩ := ihb q vb hb
          have hnbz : peval (toRat b).1 q ≠ 0 := by
            rw [hnb]
            exact mul_ne_zero hvb hdb
          simp only [toRat, ratDiv, peval_polyMul]
          refine ⟨mul_ne_zero hda hnbz, ?_⟩
          rw [hna, hnb]
          field_simp
          ring
  | pow a n iha =>
    intro q v h
    simp only [evalExpr] at h
    cases ha : evalExpr a q with
    | none => rw [ha] at h; exact absurd h (by simp)
    | some va =>
      rw [ha] at h
      obtain rfl : va ^ n = v := by
        simpa using h
      obtain ⟨hda, hna⟩ := iha q va ha
      simp only [toRat, ratPow, peval_polyPow]
      refine ⟨pow_ne_zero n hda, ?_⟩
      rw [hna]
      ring

/-- Helper: `dedupListE` preserves the membership set. -/
theorem mem_dedupListE {z : Expr} : ∀ {l : List Expr}, z ∈ dedupListE l ↔ z ∈ l := by
  have general : ∀ (l acc : List Expr),
      z ∈ l.foldl (fun acc e => if acc.contains e then acc else acc ++ [e]) acc ↔
        z ∈ acc ∨ z ∈ l := by
    intro l
    induction l with
    | nil => intro acc; simp
    | cons a rest ih =>
      intro acc
      simp only [List.foldl_cons]
      by_cases hc : acc.contains a
      · rw [if_pos hc]
        rw [ih acc]
        constructor
        · rintro (h | h)
          · exact Or.inl h
          · exact Or.inr (List.mem_cons_of_mem _ h)
        · rintro (h | h)
          · exact Or.inl h
          · rcases List.mem_cons.mp h with rfl | h
            · exact Or.inl (by simpa using hc)
            · exact Or.inr h
      · rw [if_neg hc]
        rw [ih (acc ++ [a])]
        constructor
        · rintro (h | h)
          · rcases List.mem_append.mp h with h | h
            · exact Or.inl h
            · exact Or.inr (List.mem_cons.mpr (Or.inl (by simpa using h)))
          · exact Or.inr (List.mem_cons_of_mem _ h)
        · rintro (h | h)
          · exact Or.inl (List.mem_append.mpr (Or.inl h))
          · rcases List.mem_cons.mp h with rfl | h
            · exact Or.inl (List.mem_append.mpr (Or.inr (by simp)))
            · exact Or.inr h
  intro l
  unfold dedupListE
  rw [general l []]
  simp

/-- C4 amended: when every extracted denominator is symbolically 1 (no
fractional terms at all), the Analyzer yields DenominatorSet = ∅ and
LCD = 1, and each cleared side agrees with the corresponding original
side at every point where the original side is defined (the cleared
equation is the original equation up to expansion). -/
theorem no_fraction_analysis : ∀ (lhs rhs : Expr) (msg : String),
    (∀ den ∈ extract_denominators lhs ++ extract_denominators rhs, exprIsOneB den = true) →
    (computeCore lhs rhs msg).denominators = []
    ∧ (computeCore lhs rhs msg).lcd = [1]
    ∧ (∀ q v, evalExpr lhs q = some v →
        ratEvalOpt (computeCore lhs rhs msg).cleared_lhs q = some v)
    ∧ (∀ q v, evalExpr rhs q = some v →
        ratEvalOpt (computeCore lhs rhs msg).cleared_rhs q = some v) := by
  intro lhs rhs msg hall
  have hfold : ∀ (l : List Expr), (∀ den ∈ l, exprIsOneB den = true) →
      l.foldl (fun acc den =>
        if exprIsZeroB den then acc
        else if exprIsOneB den then acc
        else appendUniqueE acc den) [] = [] := by
    have general : ∀ (l : List Expr) (acc : List Expr), (∀ den ∈ l, exprIsOneB den = true) →
        l.foldl (fun acc den =>
          if exprIsZeroB den then acc
          else if exprIsOneB den then acc
          else appendUniqueE acc den) acc = acc := by
      intro l
      induction l with
      | nil => intro acc h; rfl
      | cons a rest ih =>
        intro acc h
        simp only [List.foldl_cons]
        have ha : exprIsOneB a = true := h a (List.mem_cons_self _ _)
        by_cases hz : exprIsZeroB a = true
        · rw [if_pos hz]
          exact ih acc (fun den hd => h den (List.mem_cons_of_mem _ hd))
        · rw [if_neg hz, if_pos ha]
          exact ih acc (fun den hd => h den (List.mem_cons_of_mem _ hd))
    intro l h
    exact general l [] h
  have hden : computeDenoms lhs rhs = [] := by
    unfold computeDenoms
    rw [hfold _ (fun den hd => hall den (mem_dedupListE.mp hd))]
    rfl
  have hlcd : computeLcd lhs rhs = [1] := by
    unfold computeLcd
    rw [hden]
    rfl
  have hcleared : ∀ (side : Expr) (q v : ℚ), evalExpr side q = some v →
      ratEvalOpt (computeCleared lhs rhs side) q = some v := by
    intro side q v hv
    obtain ⟨hd, hn⟩ := toRat_eval side q v hv
    unfold computeCleared
    rw [hlcd]
    have hd1 : peval (ratMul (toRat side) ([1], [1])).2 q ≠ 0 := by
      simp only [ratMul, peval_polyMul]
      have h1 : peval [(1 : ℚ)] q = 1 := by
        simp [peval]
      rw [h1, mul_one]
      exact hd
    rw [ratCancel_eval _ _ hd1]
    congr 1
    simp only [ratMul, peval_polyMul]
    have h1 : peval [(1 : ℚ)] q = 1 := by
      simp [peval]
    rw [h1, mul_one, mul_one, hn, mul_div_assoc, div_self hd, mul_one]
  have hdenf : (computeCore lhs rhs msg).denominators = computeDenoms lhs rhs := by
    rw [computeCore_def]
  have hlcdf : (computeCore lhs rhs msg).lcd = computeLcd lhs rhs := by
    rw [computeCore_def]
  have hclf : (computeCore lhs rhs msg).cleared_lhs = computeCleared lhs rhs lhs := by
    rw [computeCore_def]
  have hcrf : (computeCore lhs rhs msg).cleared_rhs = computeCleared lhs rhs rhs := by
    rw [computeCore_def]
  refine ⟨by rw [hdenf, hden], by rw [hlcdf, hlcd], ?_, ?_⟩
  · intro q v hv
    rw [hclf]
    exact hcleared lhs q v hv
  · intro q v hv
    rw [hcrf]
    exact hcleared rhs q v hv

/-- C4 witness: for `2*x+1 = 5` every extracted denominator is 1, the
DenominatorSet is empty, the LCD is 1, and the cleared left side agrees
with the original at x = 0. -/
theorem no_fraction_analysis_witness :
    (computeCore (Expr.add (Expr.mul (Expr.num 2) Expr.var) (Expr.num 1)) (Expr.num 5)
      proceedMsg).denominators = []
    ∧ (computeCore (Expr.add (Expr.mul (Expr.num 2) Expr.var) (Expr.num 1)) (Expr.num 5)
      proceedMsg).lcd = [1]
    ∧ ratEvalOpt (computeCore (Expr.add (Expr.mul (Expr.num 2) Expr.var) (Expr.num 1)) (Expr.num 5)
      proceedMsg).cleared_lhs 0 = some 1 :=
  have h := no_fraction_analysis (Expr.add (Expr.mul (Expr.num 2) Expr.var) (Expr.num 1))
    (Expr.num 5) proceedMsg (by decide)
  ⟨h.1, h.2.1, h.2.2.1 0 1 (by decide)⟩

/-- C4 counterexample: for `x/2 = 3` the Analyzer keeps the constant
denominator 2 in its DenominatorSet and computes LCD = 2, refuting the
claim that equations with constant denominators yield DenominatorSet = ∅
and LCD = 1 (only denominators equal to 1 or 0 are filtered out). -/
theorem constant_denominator_retained :
    (compute_rational_solution_data "x/2=3").toOption.map (fun d => (d.denominators, d.lcd))
      = some ([Expr.num 2], [2])
    ∧ ([2] : Poly) ≠ ([1] : Poly) :=
  ⟨by decide, by decide⟩

/-- C5 counterexample: on `x**2-2*x+1=0` the concise mode (a projection of
`compute_rational_solution_data`) reports the valid root list `[1]`, while
the narrated mode — which re-derives its own roots through the explicit
quadratic formula, appending both formula branches even for a double
root — reports `[1, 1]`; the modes disagree on the final root list, so the
narrated mode is not a projection of the same AnalysisResult. -/
theorem narrated_mode_disagrees :
    (conciseContent "x**2-2*x+1=0").toOption
      = some { final_roots := [1], extraneous := [], verdicts := [(1, true)] }
    ∧ (match parseEqStr "x**2-2*x+1=0" with
       | some (l, r) => narratedValidSolutions l r
       | none => []) = [1, 1]
    ∧ ([1, 1] : List ℚ) ≠ ([1] : List ℚ) :=
  ⟨by decide, by decide, by decide⟩

/-- Helper: a successful character split means the character occurs. -/
theorem splitOnceChar_mem {c : Char} :
    ∀ {s : List Char} {pr : List Char × List Char}, splitOnceChar c s = some pr → c ∈ s := by
  intro s
  induction s with
  | nil => intro pr h; simp [splitOnceChar] at h
  | cons a rest ih =>
    intro pr h
    unfold splitOnceChar at h
    by_cases ha : a = c
    · simp [ha]
    · simp only [ha, if_false] at h
      cases hr : splitOnceChar c rest with
      | none => rw [hr] at h; exact absurd h (by simp)
      | some q => exact List.mem_cons_of_mem _ (ih hr)

/-- Helper: a parsed equation string contains an equals sign. -/
theorem parseEqStr_contains {s : String} {pr : Expr × Expr}
    (h : parseEqStr s = some pr) : '=' ∈ s.data := by
  unfold parseEqStr at h
  cases hs : splitOnceChar '=' s.data with
  | none => rw [hs] at h; exact absurd h (by simp)
  | some q => exact splitOnceChar_mem hs

/-- Helper: a parsed equation string makes the missing-equals test fail. -/
theorem parseEqStr_count_ne {s : String} {pr : Expr × Expr}
    (h : parseEqStr s = some pr) : (s.data.count '=' == 0) = false := by
  have hm := parseEqStr_contains h
  have : s.data.count '=' ≠ 0 := by
    intro h0
    exact absurd hm (List.count_eq_zero.mp h0)
  simpa using this

/-- C2 amended: the Validator answers `(True, identity message)` when the
two sides are symbolically equal and `(False, contradiction message)` when
their difference is a nonzero constant; `compute_rational_solution_data`
raises exactly on a `False` flag, so contradictions short-circuit and
surface their message verbatim while identities proceed to analysis (the
Analyzer runs if and only if the verdict flag is `True`). -/
theorem validator_degenerate_verdicts : ∀ s : String,
    ((compute_rational_solution_data s).isOk = true ↔ (validate_rational_equation s).1 = true)
    ∧ (∀ l r : Expr, parseEqStr s = some (l, r) →
        polyIsZero (toRat l).2 = false → polyIsZero (toRat r).2 = false →
        (exprEqB l r = true → validate_rational_equation s = (true, identityMsg))
        ∧ (exprEqB l r = false → ratIsConst (ratSub (toRat l) (toRat r)) = true →
            validate_rational_equation s = (false, contradictionMsg)
            ∧ compute_rational_solution_data s = Except.error contradictionMsg)) := by
  intro s
  constructor
  · constructor
    · intro h
      by_cases hv : (validate_rational_equation s).1 = true
      · exact hv
      · exfalso
        have hv2 : (validate_rational_equation s).1 = false := by
          cases hb : (validate_rational_equation s).1
          · rfl
          · exact absurd hb hv
        unfold compute_rational_solution_data at h
        rw [hv2] at h
        simp [Except.isOk, Except.toBool] at h
    · intro hv
      have hp : ∃ pr, parseEqStr s = some pr := by
        unfold validate_rational_equation at hv
        by_cases h0 : (s.data.count '=' == 0) = true
        · rw [if_pos h0] at hv; simp at hv
        · rw [if_neg h0] at hv
          cases hq : parseEqStr s with
          | none => rw [hq] at hv; simp at hv
          | some q => exact ⟨q, rfl⟩
      obtain ⟨pr, hp⟩ := hp
      unfold compute_rational_solution_data
      rw [hv, hp]
      simp [Except.isOk, Except.toBool]
  · intro l r hp h1 h2
    have hcount := parseEqStr_count_ne hp
    have hval : validate_rational_equation s = validateCore l r := by
      unfold validate_rational_equation
      rw [hcount, hp]
      simp
    constructor
    · intro heq
      rw [hval]
      unfold validateCore
      rw [h1, h2, heq]
      simp
    · intro hne hconst
      have hvfull : validate_rational_equation s = (false, contradictionMsg) := by
        rw [hval]
        unfold validateCore
        rw [h1, h2, hne, hconst]
        simp
      refine ⟨hvfull, ?_⟩
      unfold compute_rational_solution_data
      rw [hvfull]
      simp

/-- C2 witness: `x = x+1` parses, has nonzero denominators on both sides,
its sides are not symbolically equal, and their difference is the nonzero
constant −1; the validator reports the contradiction message and the
Analyzer raises it. -/
theorem validator_degenerate_verdicts_witness :
    validate_rational_equation "x=x+1" = (false, contradictionMsg)
    ∧ compute_rational_solution_data "x=x+1" = Except.error contradictionMsg :=
  ((validator_degenerate_verdicts "x=x+1").2 Expr.var (Expr.add Expr.var (Expr.num 1))
    (by decide) (by decide) (by decide)).2 (by decide) (by decide)

/-- C5 amended: the Concise and Latex modes expose identical mathematical
content on every input, since both are pure projections of the same
`compute_rational_solution_data` record. -/
theorem concise_latex_pure_projections : ∀ s : String, conciseContent s = latexContent s :=
  fun _ => rfl

/-- C9: the validator is total — on every input string it yields a
`(flag, message)` pair whose message is one of its seven fixed messages,
and the flag is `True` exactly for the three success messages; parse
failures and degenerate cases are reported as `False` verdicts, never as
exceptions (the embedding models fallible engine calls with `Option`). -/
theorem validator_total_messages : ∀ s : String,
    (validate_rational_equation s).2 ∈ validateMessages
    ∧ ((validate_rational_equation s).1 = true ↔ (validate_rational_equation s).2 ∈ validateOkMessages) := by
  intro s
  by_cases h0 : (s.data.count '=' == 0) = true
  · have hv : validate_rational_equation s = (false, notAnEquationMsg) := by
      unfold validate_rational_equation
      rw [if_pos h0]
    rw [hv]
    exact ⟨by decide, by decide⟩
  · cases hq : parseEqStr s with
    | none =>
      have hv : validate_rational_equation s = (false, invalidFormatMsg) := by
        unfold validate_rational_equation
        rw [if_neg h0, hq]
      rw [hv]
      exact ⟨by decide, by decide⟩
    | some pr =>
      obtain ⟨l, r⟩ := pr
      have hv : validate_rational_equation s = validateCore l r := by
        unfold validate_rational_equation
        rw [if_neg h0, hq]
      rw [hv]
      unfold validateCore
      by_cases hz : (polyIsZero (toRat l).2 || polyIsZero (toRat r).2) = true
      · rw [if_pos hz]; exact ⟨by decide, by decide⟩
      · rw [if_neg hz]
        by_cases hi : exprEqB l r = true
        · rw [if_pos hi]; exact ⟨by decide, by decide⟩
        · rw [if_neg hi]
          by_cases hc : ratIsConst (ratSub (toRat l) (toRat r)) = true
          · rw [if_pos hc]; exact ⟨by decide, by decide⟩
          · rw [if_neg hc]
            by_cases hd : (constDenB l && constDenB r) = true
            · rw [if_pos hd]; exact ⟨by decide, by decide⟩
            · rw [if_neg hd]; exact ⟨by decide, by decide⟩

/-- C9 witness: the validator applied to a simple linear equation yields
one of the fixed messages and a flag consistent with it. -/
theorem validator_total_messages_witness :
    (validate_rational_equation "2*x+1=5").2 ∈ validateMessages :=
  (validator_total_messages "2*x+1=5").1

/-- C10 amended: the checker case-folds the instructor equation before
anything else, so any two equation strings that agree after replacing `X`
by `x` produce identical analysis results (in particular the same
`student_value` and `answer_correct`). -/
theorem equation_case_fold_invariance : ∀ (e1 e2 a : String) (lines : List String),
    pyReplace e1 "X" "x" = pyReplace e2 "X" "x" →
    analyze_student_solution e1 a lines = analyze_student_solution e2 a lines := by
  intro e1 e2 a lines h
  unfold analyze_student_solution
  rw [h]

/-- C10 witness: `2*X+1=5` and `2*x+1=5` fold to the same equation and
get identical checker results. -/
theorem equation_case_fold_invariance_witness :
    analyze_student_solution "2*X+1=5" "x = 2" [] = analyze_student_solution "2*x+1=5" "x = 2" [] :=
  equation_case_fold_invariance "2*X+1=5" "2*x+1=5" "x = 2" [] (by decide)

/-- Helper: string concatenation concatenates the character data. -/
theorem string_data_append (a b : String) : (a ++ b).data = a.data ++ b.data := by
  cases a
  cases b
  rfl

/-- Helper: digit characters are never the equals sign. -/
theorem digitChar_ne_eq : ∀ d : Nat, digitChar d ≠ '=' := by
  intro d
  unfold digitChar
  split <;> decide

/-- Helper: the digit expansion contains no equals sign. -/
theorem natDigitsAux_no_eq : ∀ (fuel n : Nat), '=' ∉ natDigitsAux fuel n := by
  intro fuel
  induction fuel with
  | zero => intro n; simp [natDigitsAux]
  | succ f ih =>
    intro n
    unfold natDigitsAux
    by_cases h : n < 10
    · rw [if_pos h]
      intro hm
      exact digitChar_ne_eq n (List.mem_singleton.mp hm).symm
    · rw [if_neg h]
      intro hm
      rcases List.mem_append.mp hm with hm | hm
      · exact ih (n / 10) hm
      · exact digitChar_ne_eq (n % 10) (List.mem_singleton.mp hm).symm

/-- Helper: printed naturals contain no equals sign. -/
theorem natToStr_no_eq (n : Nat) : '=' ∉ (natToStr n).data :=
  natDigitsAux_no_eq (n + 1) n

/-- Helper: printed integers contain no equals sign. -/
theorem intToStr_no_eq (i : Int) : '=' ∉ (intToStr i).data := by
  unfold intToStr
  by_cases h : i < 0
  · rw [if_pos h]
    rw [string_data_append]
    intro hm
    rcases List.mem_append.mp hm with hm | hm
    · simp at hm
    · exact natToStr_no_eq i.natAbs hm
  · rw [if_neg h]
    exact natToStr_no_eq i.natAbs

/-- Helper: printed rational literals contain no equals sign. -/
theorem ratToString_no_eq (q : ℚ) : '=' ∉ (ratToString q).data := by
  unfold ratToString
  by_cases h : q.den = 1
  · rw [if_pos h]
    exact intToStr_no_eq q.num
  · rw [if_neg h]
    rw [string_data_append, string_data_append]
    intro hm
    rcases List.mem_append.mp hm with hm | hm
    · rcases List.mem_append.mp hm with hm | hm
      · exact intToStr_no_eq q.num hm
      · simp at hm
    · exact natToStr_no_eq q.den hm

/-- Helper: parenthesizing preserves equals-sign absence. -/
theorem parenCompound_no_eq (e : Expr) (s : String) (h : '=' ∉ s.data) :
    '=' ∉ (parenCompound e s).data := by
  have hp : '=' ∉ ("(" ++ s ++ ")").data := by
    rw [string_data_append, string_data_append]
    intro hm
    rcases List.mem_append.mp hm with hm | hm
    · rcases List.mem_append.mp hm with hm | hm
      · simp at hm
      · exact h hm
    · simp at hm
  cases e with
  | num q =>
    simp only [parenCompound]
    by_cases hq : q < 0
    · rw [if_pos hq]; exact hp
    · rw [if_neg hq]; exact h
  | var => simpa only [parenCompound] using h
  | pow a n => simpa only [parenCompound] using h
  | add a b => simpa only [parenCompound] using hp
  | sub a b => simpa only [parenCompound] using hp
  | neg a => simpa only [parenCompound] using hp
  | mul a b => simpa only [parenCompound] using hp
  | div a b => simpa only [parenCompound] using hp

/-- Helper: the printed form of an expression contains no equals sign. -/
theorem exprToString_no_eq : ∀ e : Expr, '=' ∉ (exprToString e).data := by
  intro e
  induction e with
  | num q => exact ratToString_no_eq q
  | var => simp [exprToString]
  | add a b iha ihb =>
    unfold exprToString
    rw [string_data_append, string_data_append]
    intro hm
    rcases List.mem_append.mp hm with hm | hm
    · rcases List.mem_append.mp hm with hm | hm
      · exact iha hm
      · simp at hm
    · exact ihb hm
  | sub a b iha ihb =>
    unfold exprToString
    rw [string_data_append, string_data_append]
    intro hm
    rcases List.mem_append.mp hm with hm | hm
    · rcases List.mem_append.mp hm with hm | hm
      · exact iha hm
      · simp at hm
    · exact ihb hm
  | neg a iha =>
    unfold exprToString
    rw [string_data_append]
    intro hm
    rcases List.mem_append.mp hm with hm | hm
    · simp at hm
    · exact parenCompound_no_eq a (exprToString a) iha hm
  | mul a b iha ihb =>
    unfold exprToString
    rw [string_data_append, string_data_append]
    intro hm
    rcases List.mem_append.mp hm with hm | hm
    · rcases List.mem_append.mp hm with hm | hm
      · exact parenCompound_no_eq a (exprToString a) iha hm
      · simp at hm
    · exact parenCompound_no_eq b (exprToString b) ihb hm
  | div a b iha ihb =>
    unfold exprToString
    rw [string_data_append, string_data_append]
    intro hm
    rcases List.mem_append.mp hm with hm | hm
    · rcases List.mem_append.mp hm with hm | hm
      · exact parenCompound_no_eq a (exprToString a) iha hm
      · simp at hm
    · exact parenCompound_no_eq b (exprToString b) ihb hm
  | pow a n iha =>
    unfold exprToString
    rw [string_data_append, string_data_append]
    intro hm
    rcases List.mem_append.mp hm with hm | hm
    · rcases List.mem_append.mp hm with hm | hm
      · exact parenCompound_no_eq a (exprToString a) iha hm
      · simp at hm
    · exact natToStr_no_eq n hm

/-- Helper: the recovery output `lhs=rhs` has exactly one equals sign. -/
theorem recovery_count_one (l r : Expr) :
    (exprToString l ++ "=" ++ exprToString r).data.count '=' = 1 := by
  rw [string_data_append, string_data_append]
  rw [List.count_append, List.count_append]
  have hl : (exprToString l).data.count '=' = 0 := List.count_eq_zero.mpr (exprToString_no_eq l)
  have hr : (exprToString r).data.count '=' = 0 := List.count_eq_zero.mpr (exprToString_no_eq r)
  rw [hl, hr]
  rfl

/-- C7: `to_checker_equation` returns a string with exactly one `=` or
fails with the normalization error: every `ok` result has `=`-count 1
(either the guard saw exactly one `=`, or the recovery emitted
`str(lhs)=str(rhs)` whose sides cannot contain `=`), every `error` is the
empty-input error or the final-guard error raised exactly when the stage
chain does not produce exactly one `=` and the external recovery fails to
produce an equality. -/
theorem normalizer_single_equals_guard : ∀ s : String,
    (∀ t, to_checker_equation s = Except.ok t → t.data.count '=' = 1)
    ∧ (∀ e, to_checker_equation s = Except.error e →
        ((pyStrip s.data).isEmpty = true ∧ e = "Empty equation")
        ∨ ((checkerStages s).count '=' ≠ 1
            ∧ latexRecoverEq (String.mk (checkerStages s)) = none
            ∧ e = "Equation must contain exactly one ="))
    ∧ ((pyStrip s.data).isEmpty = false →
        (checkerStages s).count '=' ≠ 1 →
        latexRecoverEq (String.mk (checkerStages s)) = none →
        to_checker_equation s = Except.error "Equation must contain exactly one =") := by
  intro s
  obtain ⟨cs, hcs⟩ : ∃ cs, checkerStages s = cs := ⟨_, rfl⟩
  unfold to_checker_equation
  rw [hcs]
  by_cases hemp : (pyStrip s.data).isEmpty = true
  · rw [if_pos hemp]
    refine ⟨?_, ?_, ?_⟩
    · intro t ht
      exact absurd ht (by simp)
    · intro e he
      left
      obtain rfl : "Empty equation" = e := by injection he
      exact ⟨hemp, rfl⟩
    · intro hf
      rw [hemp] at hf
      exact absurd hf (by simp)
  · rw [if_neg hemp]
    by_cases hone : (cs.count '=' == 1) = true
    · rw [if_pos hone]
      refine ⟨?_, ?_, ?_⟩
      · intro t ht
        obtain rfl : String.mk cs = t := by injection ht
        simpa using hone
      · intro e he
        exact absurd he (by simp)
      · intro _ hne _
        have hc : List.count '=' cs = 1 := by
          simpa using hone
        exact absurd hc hne
    · rw [if_neg hone]
      cases hrec : latexRecoverEq (String.mk cs) with
      | some pr =>
        refine ⟨?_, ?_, ?_⟩
        · intro t ht
          obtain rfl : exprToString pr.1 ++ "=" ++ exprToString pr.2 = t := by injection ht
          exact recovery_count_one pr.1 pr.2
        · intro e he
          exact absurd he (by simp)
        · intro _ _ hn
          exact absurd hn (by simp)
      | none =>
        refine ⟨?_, ?_, ?_⟩
        · intro t ht
          exact absurd ht (by simp)
        · intro e he
          right
          obtain rfl : "Equation must contain exactly one =" = e := by injection he
          refine ⟨?_, rfl, rfl⟩
          intro hc
          rw [show (cs.count '=' == 1) = true from by
            rw [hc]
            rfl] at hone
          exact hone rfl
        · intro _ _ _
          rfl

/-- C7 witness: on the already-canonical input `2*x+1=5` the normalizer
returns it unchanged, and the returned string has exactly one `=`. -/
theorem normalizer_single_equals_guard_witness :
    ("2*x+1=5" : String).data.count '=' = 1 :=
  (normalizer_single_equals_guard "2*x+1=5").1 "2*x+1=5" (by rfl)

/-! ### Identity of the normalizer stages on canonical strings -/

/-- Helper: a whitespace character of the canonical alphabet is the
space. -/
theorem ws_canonical_eq_space {c : Char} (hws : isWsP c = true)
    (hc : canonicalChar c = true) : c = ' ' := by
  unfold isWsP at hws
  simp only [Bool.or_eq_true, decide_eq_true_eq] at hws
  rcases hws with ((((h1 | h2) | h3) | h4) | h5) | h6
  · exact h1
  · subst h2; exact absurd hc (by decide)
  · subst h3; exact absurd hc (by decide)
  · subst h4; exact absurd hc (by decide)
  · have he : c = '\x0B' := Char.ext (by rw [h5]; rfl)
    subst he; exact absurd hc (by decide)
  · have he : c = '\x0C' := Char.ext (by rw [h6]; rfl)
    subst he; exact absurd hc (by decide)

/-- Helper: a cons-headed prefix test fails when the heads differ. -/
theorem isPrefixL_cons_false {b c : Char} {pat rest : List Char} (h : c ≠ b) :
    isPrefixL (b :: pat) (c :: rest) = false := by
  have hbc : (b == c) = false := by
    cases hk : b == c
    · rfl
    · exact absurd (beq_iff_eq.mp hk).symm h
  show ((b == c) && List.isPrefixOf pat rest) = false
  rw [hbc, Bool.false_and]

/-- Helper: a pattern headed by an absent character never occurs. -/
theorem splitFirstSub_none_of_notMem {b : Char} {pat : List Char} :
    ∀ {l : List Char}, b ∉ l → splitFirstSub (b :: pat) l = none := by
  intro l
  induction l with
  | nil => intro _; rfl
  | cons c rest ih =>
    intro h
    have hb : c ≠ b := fun hc => h (hc ▸ List.mem_cons_self _ _)
    have hrec := ih (fun hm => h (List.mem_cons_of_mem _ hm))
    simp [splitFirstSub, isPrefixL_cons_false hb, hrec]

/-- Helper: replacing a pattern headed by an absent character is the
identity. -/
theorem replaceAllSub_id {b : Char} {pat rep : List Char} :
    ∀ (fuel : Nat) {l : List Char}, b ∉ l →
      replaceAllSub (b :: pat) rep fuel l = l := by
  intro fuel
  induction fuel with
  | zero => intro l _; rfl
  | succ f ih =>
    intro l h
    cases l with
    | nil => rfl
    | cons c rest =>
      have hb : c ≠ b := fun hc => h (hc ▸ List.mem_cons_self _ _)
      have hrec := ih (fun hm => h (List.mem_cons_of_mem _ hm))
      simp [replaceAllSub, isPrefixL_cons_false hb, hrec]

/-- Helper: a string without `[` keeps all its bracket blocks. -/
theorem removeBracketBlocks_id {l : List Char} (h : '[' ∉ l) :
    ∀ fuel, removeBracketBlocks fuel l = l := by
  intro fuel
  cases fuel with
  | zero => rfl
  | succ f =>
    unfold removeBracketBlocks
    rw [splitFirstSub_none_of_notMem h]

/-- Helper: membership of a character failing `canonicalChar` is
impossible in a canonical string. -/
theorem notMem_of_canonical {b : Char} {l : List Char}
    (hall : ∀ c ∈ l, canonicalChar c = true) (hb : canonicalChar b = false) :
    b ∉ l := by
  intro hm
  rw [hall b hm] at hb
  exact absurd hb (by simp)

/-- Helper: leading-whitespace removal is the identity when the head is
not a space. -/
theorem dropWhile_ws_id {l : List Char}
    (hall : ∀ c ∈ l, canonicalChar c = true)
    (hhead : ∀ c t, l = c :: t → c ≠ ' ') :
    l.dropWhile isWsP = l := by
  cases l with
  | nil => rfl
  | cons c t =>
    apply List.dropWhile_cons_of_neg
    intro hws
    exact hhead c t rfl (ws_canonical_eq_space hws (hall c (List.mem_cons_self _ _)))

/-- Helper: `pyStrip` keeps a string whose two ends are not spaces. -/
theorem pyStrip_id {l : List Char}
    (hall : ∀ c ∈ l, canonicalChar c = true)
    (hhead : ∀ c t, l = c :: t → c ≠ ' ')
    (hlast : ∀ c t, l.reverse = c :: t → c ≠ ' ') :
    pyStrip l = l := by
  unfold pyStrip
  rw [dropWhile_ws_id hall hhead]
  rw [dropWhile_ws_id (fun c hc => hall c (List.mem_reverse.mp hc)) hlast,
    List.reverse_reverse]

/-- Helper: on canonical characters the Python whitespace class and the
plain space test drop the same prefix. -/
theorem dropWhile_ws_space {l : List Char}
    (hall : ∀ c ∈ l, canonicalChar c = true) :
    l.dropWhile isWsP = l.dropWhile (fun c => c = ' ') := by
  induction l with
  | nil => rfl
  | cons c rest ih =>
    have hc := hall c (List.mem_cons_self _ _)
    by_cases hsp : c = ' '
    · subst hsp
      rw [List.dropWhile_cons_of_pos (by decide), List.dropWhile_cons_of_pos (by decide)]
      exact ih (fun x hx => hall x (List.mem_cons_of_mem _ hx))
    · have hws : isWsP c = false := by
        cases hk : isWsP c
        · rfl
        · exact absurd (ws_canonical_eq_space hk hc) hsp
      rw [List.dropWhile_cons_of_neg (by simp [hws]), List.dropWhile_cons_of_neg (by simp [hsp])]

/-- Helper: collapsing whitespace keeps a canonical string with no double
spaces. -/
theorem collapseWs_id {l : List Char}
    (hall : ∀ c ∈ l, canonicalChar c = true)
    (hnd : noDoubleSpace l = true) :
    collapseWs l = l := by
  have general : ∀ (m : List Char), (∀ c ∈ m, canonicalChar c = true) →
      noDoubleSpace m = true →
      collapseWsAux false m = m ∧
        ((∀ d t, m = d :: t → d ≠ ' ') → collapseWsAux true m = m) := by
    intro m
    induction m with
    | nil => intro _ _; exact ⟨rfl, fun _ => rfl⟩
    | cons c rest ih =>
      intro hall2 hnd2
      have hrall : ∀ x ∈ rest, canonicalChar x = true :=
        fun x hx => hall2 x (List.mem_cons_of_mem _ hx)
      have hrnd : noDoubleSpace rest = true := by
        cases rest with
        | nil => rfl
        | cons d tr =>
          have h2 : (!(c = ' ' && d = ' ') && noDoubleSpace (d :: tr)) = true := hnd2
          simp only [Bool.and_eq_true] at h2
          exact h2.2
      obtain ⟨ihf, iht⟩ := ih hrall hrnd
      have hc : canonicalChar c = true := hall2 c (List.mem_cons_self _ _)
      by_cases hsp : c = ' '
      · subst hsp
        have hheadr : ∀ d t, rest = d :: t → d ≠ ' ' := by
          intro d t hdt hd
          subst hd
          rw [hdt] at hnd2
          simp [noDoubleSpace] at hnd2
        constructor
        · simp [collapseWsAux, isWsP, iht hheadr]
        · intro hmh
          exact absurd rfl (hmh ' ' rest rfl)
      · have hws : isWsP c = false := by
          cases hk : isWsP c
          · rfl
          · exact absurd (ws_canonical_eq_space hk hc) hsp
        constructor
        · simp [collapseWsAux, hws, ihf]
        · intro _
          simp [collapseWsAux, hws, ihf]
  exact (general l hall hnd).1

/-- Helper: an absent character is not contained. -/
theorem contains_eq_false_of_notMem {b : Char} {l : List Char} (h : b ∉ l) :
    l.contains b = false := by
  cases hc : l.contains b
  · rfl
  · exact absurd (by simpa using hc) h

/-- Helper: a member character is contained. -/
theorem contains_eq_true_of_mem {b : Char} {l : List Char} (h : b ∈ l) :
    l.contains b = true := by
  simpa using h

/-- Helper: dollar unwrapping keeps a string without `$`. -/
theorem unwrapDollars_id {l : List Char} (h : '$' ∉ l) :
    unwrapDollars l = l := by
  have h2 : isPrefixL ['$', '$'] l = false := by
    cases l with
    | nil => rfl
    | cons c t => exact isPrefixL_cons_false (fun hc => h (hc ▸ List.mem_cons_self _ _))
  have h1 : isPrefixL ['$'] l = false := by
    cases l with
    | nil => rfl
    | cons c t => exact isPrefixL_cons_false (fun hc => h (hc ▸ List.mem_cons_self _ _))
  simp [unwrapDollars, h1, h2]

/-- Helper: canonical characters are ASCII and hence not invisible. -/
theorem canonical_not_invisible {c : Char} (h : canonicalChar c = true) :
    isInvisibleChar c = false := by
  cases hk : isInvisibleChar c
  · rfl
  · exfalso
    unfold isInvisibleChar at hk
    simp only [Bool.or_eq_true, Bool.and_eq_true, decide_eq_true_eq] at hk
    rcases hk with (⟨h1, h2⟩ | h3) | h4
    · have g1 : (0x200B : UInt32).toNat ≤ c.val.toNat := h1
      have g2 : c.val.toNat ≤ (0x200D : UInt32).toNat := h2
      have hv : c.val.toNat = 8203 ∨ c.val.toNat = 8204 ∨ c.val.toNat = 8205 := by
        simp only [show (0x200B : UInt32).toNat = 8203 from rfl] at g1
        simp only [show (0x200D : UInt32).toNat = 8205 from rfl] at g2
        omega
      rcases hv with hv | hv | hv
      · have he : c = Char.ofNat 8203 := Char.ext (UInt32.ext hv)
        subst he; exact absurd h (by decide)
      · have he : c = Char.ofNat 8204 := Char.ext (UInt32.ext hv)
        subst he; exact absurd h (by decide)
      · have he : c = Char.ofNat 8205 := Char.ext (UInt32.ext hv)
        subst he; exact absurd h (by decide)
    · have he : c = Char.ofNat 0xFEFF := Char.ext (by rw [h3]; rfl)
      subst he; exact absurd h (by decide)
    · have he : c = Char.ofNat 0x00A0 := Char.ext (by rw [h4]; rfl)
      subst he; exact absurd h (by decide)

/-- Helper: the invisible-character filter keeps a canonical string. -/
theorem filter_invisible_id {l : List Char}
    (hall : ∀ c ∈ l, canonicalChar c = true) :
    l.filter (fun c => !isInvisibleChar c) = l := by
  apply List.filter_eq_self.mpr
  intro c hc
  simp [canonical_not_invisible (hall c hc)]

/-- Helper: the `\frac` shorthand rewrite keeps a string without `\`. -/
theorem fracFix_id {l : List Char} (h : '\\' ∉ l) :
    ∀ fuel, fracFix fuel l = l := by
  have general : ∀ (fuel : Nat) {m : List Char}, '\\' ∉ m → fracFix fuel m = m := by
    intro fuel
    induction fuel with
    | zero => intro m _; rfl
    | succ f ih =>
      intro m hm
      cases m with
      | nil => rfl
      | cons c rest =>
        have hb : c ≠ '\\' := fun hc => hm (hc ▸ List.mem_cons_self _ _)
        have hrec := ih (fun hx => hm (List.mem_cons_of_mem _ hx))
        simp [fracFix, isPrefixL_cons_false hb, hrec]
  intro fuel
  exact general fuel h

/-- Helper: the preprocessing bracket-equation stage keeps a string
without `[`. -/
theorem bracketStageV1_id {l : List Char} (h : '[' ∉ l) :
    bracketStageV1 l = l := by
  unfold bracketStageV1
  rw [contains_eq_false_of_notMem h, Bool.false_and]
  rfl

/-- Helper: the checker bracket-equation stage keeps a string without
`[`. -/
theorem bracketStageV2_id {l : List Char} (h : '[' ∉ l) :
    bracketStageV2 l = l := by
  unfold bracketStageV2
  rw [contains_eq_false_of_notMem h, Bool.false_and]
  rfl

/-- Helper: OCR-artifact cleaning keeps a canonical string with
unpadded ends and no double spaces. -/
theorem clean_ocr_id {l : List Char}
    (hall : ∀ c ∈ l, canonicalChar c = true)
    (hhead : ∀ c t, l = c :: t → c ≠ ' ')
    (hlast : ∀ c t, l.reverse = c :: t → c ≠ ' ')
    (hnd : noDoubleSpace l = true) :
    clean_ocr_artifacts l = l := by
  have hbs : '\\' ∉ l := notMem_of_canonical hall (by decide)
  have hbr : '[' ∉ l := notMem_of_canonical hall (by decide)
  have hnl : '\n' ∉ l := notMem_of_canonical hall (by decide)
  have hcr : '\r' ∉ l := notMem_of_canonical hall (by decide)
  unfold clean_ocr_artifacts
  rw [splitFirstSub_none_of_notMem hbs]
  simp only []
  rw [removeBracketBlocks_id hbr, replaceAllSub_id _ hnl, replaceAllSub_id _ hcr,
    collapseWs_id hall hnd, pyStrip_id hall hhead hlast]

/-- Helper: LaTeX preprocessing keeps a canonical string with unpadded
ends and no double spaces. -/
theorem preprocess_id {l : List Char}
    (hall : ∀ c ∈ l, canonicalChar c = true)
    (hhead : ∀ c t, l = c :: t → c ≠ ' ')
    (hlast : ∀ c t, l.reverse = c :: t → c ≠ ' ')
    (hnd : noDoubleSpace l = true) :
    preprocess_latex_for_rationals l = l := by
  have hbs : '\\' ∉ l := notMem_of_canonical hall (by decide)
  have hbr : '[' ∉ l := notMem_of_canonical hall (by decide)
  have hdl : '$' ∉ l := notMem_of_canonical hall (by decide)
  have hmin : Char.ofNat 0x2212 ∉ l := notMem_of_canonical hall (by decide)
  have hmul : Char.ofNat 0x00D7 ∉ l := notMem_of_canonical hall (by decide)
  unfold preprocess_latex_for_rationals
  simp only []
  rw [pyStrip_id hall hhead hlast, clean_ocr_id hall hhead hlast hnd,
    unwrapDollars_id hdl]
  rw [replaceAllSub_id _ hbs, replaceAllSub_id _ hbs, replaceAllSub_id _ hmin,
    replaceAllSub_id _ hbs, replaceAllSub_id _ hbs, replaceAllSub_id _ hmul,
    replaceAllSub_id _ hbs, replaceAllSub_id _ hbs, replaceAllSub_id _ hbs]
  rw [filter_invisible_id hall, fracFix_id hbs, bracketStageV1_id hbr,
    collapseWs_id hall hnd, pyStrip_id hall hhead hlast]

/-- Helper: the explicit-multiplication discipline passes to the tail. -/
theorem emo_tail {a : Char} {rest : List Char}
    (h : explicitMulOK (a :: rest) = true) : explicitMulOK rest = true := by
  unfold explicitMulOK at h
  simp only [Bool.and_eq_true] at h
  exact h.2

/-- Helper: the explicit-multiplication discipline forbids a digit
immediately followed by a letter. -/
theorem emo_immediate {a b : Char} {rest : List Char}
    (h : explicitMulOK (a :: b :: rest) = true) :
    (a.isDigit && b.isAlpha) = false := by
  unfold explicitMulOK at h
  simp only [Bool.and_eq_true, Bool.not_eq_true'] at h
  exact h.1.1

/-- Helper: the explicit-multiplication discipline forbids the
juxtaposition classes across a space run. -/
theorem emo_skip {a b : Char} {rest tail : List Char}
    (h : explicitMulOK (a :: rest) = true)
    (hd : rest.dropWhile (fun c => c = ' ') = b :: tail) :
    ((a = ')' && (b.isAlpha || b = '(')) || ((a.isAlpha || a = ')') && b = '(')) = false := by
  unfold explicitMulOK at h
  simp only [Bool.and_eq_true, Bool.not_eq_true'] at h
  have h2 := h.1.2
  rw [hd] at h2
  exact h2

/-- Helper: a canonical string under the explicit-multiplication
discipline cannot start with `Eq(`. -/
theorem emo_no_eq_wrapper {l : List Char} (h : explicitMulOK l = true) :
    isPrefixL ['E', 'q', '('] l = false := by
  cases hk : isPrefixL ['E', 'q', '('] l
  · rfl
  · exfalso
    cases l with
    | nil => simp [isPrefixL, List.isPrefixOf] at hk
    | cons a r1 =>
      cases r1 with
      | nil => simp [isPrefixL, List.isPrefixOf] at hk
      | cons b r2 =>
        cases r2 with
        | nil => simp [isPrefixL, List.isPrefixOf] at hk
        | cons c t =>
          obtain ⟨ha, hb, hc⟩ : 'E' = a ∧ 'q' = b ∧ '(' = c := by
            simpa [isPrefixL, List.isPrefixOf] using hk
          subst ha; subst hb; subst hc
          have h2 := emo_tail h
          have hsk := emo_skip h2
            (show ('(' :: t).dropWhile (fun c => c = ' ') = '(' :: t from
              List.dropWhile_cons_of_neg (by decide))
          exact absurd hsk (by decide)

/-- Helper: the `Eq(lhs,rhs)` unwrapping keeps a string satisfying the
explicit-multiplication discipline. -/
theorem eqWrapperStage_id {l : List Char} (h : explicitMulOK l = true) :
    eqWrapperStage l = l := by
  unfold eqWrapperStage
  rw [emo_no_eq_wrapper h, Bool.false_and]
  rfl

/-- Helper: the digit-letter boundary insertion keeps a string under the
explicit-multiplication discipline. -/
theorem insertBoundary_id {l : List Char} (h : explicitMulOK l = true) :
    insertBoundary (fun c => c.isDigit) (fun c => c.isAlpha) l = l := by
  induction l with
  | nil => rfl
  | cons a rest ih =>
    cases rest with
    | nil => rfl
    | cons b rest2 =>
      have himm : (a.isDigit && b.isAlpha) = false := emo_immediate h
      have htail : explicitMulOK (b :: rest2) = true := emo_tail h
      simp [insertBoundary, himm, ih htail]

/-- Helper: the `)`-to-letter/paren star insertion keeps a canonical
string under the explicit-multiplication discipline. -/
theorem parenStarFix_id : ∀ (fuel : Nat) {l : List Char},
    (∀ c ∈ l, canonicalChar c = true) → explicitMulOK l = true →
    parenStarFix fuel l = l := by
  intro fuel
  induction fuel with
  | zero => intro l _ _; rfl
  | succ f ih =>
    intro l hall h
    cases l with
    | nil => rfl
    | cons a rest =>
      have htail : explicitMulOK rest = true := emo_tail h
      have hallr : ∀ c ∈ rest, canonicalChar c = true :=
        fun c hc => hall c (List.mem_cons_of_mem _ hc)
      have hdw : rest.dropWhile isWsP = rest.dropWhile (fun c => c = ' ') :=
        dropWhile_ws_space hallr
      by_cases ha : a = ')'
      · subst ha
        cases hr : rest.dropWhile (fun c => c = ' ') with
        | nil => simp [parenStarFix, hdw, hr]
        | cons b tail =>
          have hsk := emo_skip h hr
          have hb : (b.isAlpha || b = '(') = false := by
            cases hx : (b.isAlpha || b = '(')
            · rfl
            · rw [hx] at hsk
              simp at hsk
          simp [parenStarFix, hdw, hr, hb, ih hallr htail]
      · simp [parenStarFix, ha, ih hallr htail]

/-- Helper: the letter/paren-to-`(` star insertion keeps a canonical
string under the explicit-multiplication discipline. -/
theorem alphaParenFix_id : ∀ (fuel : Nat) {l : List Char},
    (∀ c ∈ l, canonicalChar c = true) → explicitMulOK l = true →
    alphaParenFix fuel l = l := by
  intro fuel
  induction fuel with
  | zero => intro l _ _; rfl
  | succ f ih =>
    intro l hall h
    cases l with
    | nil => rfl
    | cons a rest =>
      have htail : explicitMulOK rest = true := emo_tail h
      have hallr : ∀ c ∈ rest, canonicalChar c = true :=
        fun c hc => hall c (List.mem_cons_of_mem _ hc)
      have hdw : rest.dropWhile isWsP = rest.dropWhile (fun c => c = ' ') :=
        dropWhile_ws_space hallr
      by_cases ha : (a.isAlpha || a = ')') = true
      · cases hr : rest.dropWhile (fun c => c = ' ') with
        | nil =>
          simp only [alphaParenFix, ha, if_true]
          rw [hdw, hr]
          simp [ih hallr htail]
        | cons b tail =>
          have hsk := emo_skip h hr
          have hb : b ≠ '(' := by
            intro hbeq
            subst hbeq
            rw [ha] at hsk
            simp at hsk
          simp only [alphaParenFix, ha, if_true]
          rw [hdw, hr]
          split
          · rename_i heq
            injection heq with h1 _
            exact absurd h1 hb
          · simp [ih hallr htail]
      · have ha2 : (a.isAlpha || a = ')') = false := by
          cases hx : (a.isAlpha || a = ')')
          · rfl
          · exact absurd hx ha
        simp [alphaParenFix, ha2, ih hallr htail]

/-- Helper: the components of the canonical-format predicate. -/
theorem canonical_parts {s : String} (h : CanonicalFormat s = true) :
    (∀ c ∈ s.data, canonicalChar c = true) ∧ s.data.count '=' = 1 ∧
    (∀ c t, s.data = c :: t → c ≠ ' ') ∧
    (∀ c t, s.data.reverse = c :: t → c ≠ ' ') ∧
    noDoubleSpace s.data = true ∧ explicitMulOK s.data = true ∧
    s.data ≠ [] := by
  unfold CanonicalFormat at h
  simp only [Bool.and_eq_true] at h
  obtain ⟨⟨⟨⟨⟨⟨h1, h2⟩, h3⟩, h4⟩, h5⟩, h6⟩, h7⟩ := h
  refine ⟨by simpa using h1, by simpa using h2, ?_, ?_, h6, h7, ?_⟩
  · intro c t hct hc
    rw [hct] at h4
    subst hc
    simp at h4
  · intro c t hct hc
    rw [hct] at h5
    subst hc
    simp at h5
  · intro hnil
    rw [hnil] at h4
    simp at h4

/-- Helper: the full stage chain of the normalizer is the identity on a
canonical string. -/
theorem checkerStages_id {s : String}
    (hall : ∀ c ∈ s.data, canonicalChar c = true)
    (hcount : s.data.count '=' = 1)
    (hhead : ∀ c t, s.data = c :: t → c ≠ ' ')
    (hlast : ∀ c t, s.data.reverse = c :: t → c ≠ ' ')
    (hnd : noDoubleSpace s.data = true)
    (hemo : explicitMulOK s.data = true) :
    checkerStages s = s.data := by
  have hmem : '=' ∈ s.data := List.count_pos_iff.mp (by omega)
  have hcont : s.data.contains '=' = true := contains_eq_true_of_mem hmem
  have hbr : '[' ∉ s.data := notMem_of_canonical hall (by decide)
  unfold checkerStages
  simp only []
  rw [pyStrip_id hall hhead hlast, preprocess_id hall hhead hlast hnd,
    eqWrapperStage_id hemo, hcont]
  simp only [Bool.not_true, Bool.and_false, Bool.false_eq_true, if_false]
  rw [bracketStageV2_id hbr, insertBoundary_id hemo,
    parenStarFix_id _ hall hemo, alphaParenFix_id _ hall hemo]

/-- Helper: a string is determined by its character list. -/
theorem string_mk_data (s : String) : String.mk s.data = s := by
  cases s
  rfl

/-- C8: on an equation string already in canonical format (ASCII with
explicit operators, exactly one `=`, balanced parentheses, explicit
multiplication and single-space normalized whitespace), every stage of
the Normalizer is the identity and `to_checker_equation` returns its
input unchanged; in particular the Normalizer is idempotent on such
strings. -/
theorem normalizer_idempotent_on_canonical (s : String)
    (h : CanonicalFormat s = true) : to_checker_equation s = Except.ok s := by
  obtain ⟨hall, hcount, hhead, hlast, hnd, hemo, hne⟩ := canonical_parts h
  have hcs : checkerStages s = s.data :=
    checkerStages_id hall hcount hhead hlast hnd hemo
  have hie : (pyStrip s.data).isEmpty = false := by
    rw [pyStrip_id hall hhead hlast]
    cases hd : s.data with
    | nil => exact absurd hd hne
    | cons c t => rfl
  unfold to_checker_equation
  rw [hie, hcs, hcount, string_mk_data]
  rfl

/-- C8 witness: the canonical equation string `2*x+1=5` satisfies the
format predicate and is returned unchanged by the Normalizer. -/
theorem normalizer_idempotent_on_canonical_witness :
    CanonicalFormat "2*x+1=5" = true ∧
      to_checker_equation "2*x+1=5" = Except.ok "2*x+1=5" :=
  ⟨by decide, normalizer_idempotent_on_canonical "2*x+1=5" (by decide)⟩

/-- C10 counterexample: the answers `final x=x` and `final X=X` differ
only by writing `X` in place of `x`, yet the checker computes different
`student_value`s for them: the declared-answer parser case-folds its own
candidate, but the fallback that scans work lines takes the text after
`=` from the original line with its casing preserved, producing the
symbol `x` in one case and the distinct symbol `X` in the other. -/
theorem student_value_case_sensitivity :
    pyReplace "final X=X" "X" "x" = pyReplace "final x=x" "X" "x"
    ∧ (analyze_student_solution "2*x+1=5" "final x=x" []).student_value
        = some (SVal.exprV Expr.var)
    ∧ (analyze_student_solution "2*x+1=5" "final X=X" []).student_value
        = some (SVal.symV "X")
    ∧ (analyze_student_solution "2*x+1=5" "final x=x" []).student_value
        ≠ (analyze_student_solution "2*x+1=5" "final X=X" []).student_value :=
  ⟨by decide, by decide, by decide, by decide⟩

end Cortex
